import Mathlib

/-!
Verification development for the search-index construction pipeline of this
repository.  The repository contains three near-duplicate Node.js scripts:

* `utils/postprocess-search-index.js` — the "index-patch" variant: it walks
  `docs/pages`, extracts sections from MDX by heading lines, and overwrites a
  pre-existing Vocs `search-index-<hash>.json` with a MiniSearch index.
* two scripts in `unnamed/part_001` — the same index-patch pipeline, the first
  one additionally filtering records by an allow-list of routes.
* `unnamed/part_000` — the "simple" variant: it splits markdown by `##`/`###`
  headings and serializes `{title, content, url}` records to JSON.

Strings are modelled as `List Char`.  File-system effects (walking the docs
tree, reading files, writing outputs) are abstracted: the pipelines are
modelled as pure functions from a corpus — a list of (relative path, raw
content) pairs — to the list of records fed to the index / serialized output.
Regex-based text transformations are modelled by explicit scanners that follow
the JavaScript regex semantics of the source.
-/

/- ===================== Character classes and JS string primitives ======= -/

/-- Model of the JavaScript `\s` character class (and of the set trimmed by
`String.prototype.trim`), restricted to the whitespace characters relevant
here: space, tab, newline, carriage return, vertical tab, form feed and
no-break space. -/
def isWs (c : Char) : Bool :=
  c.toNat = 32 || c.toNat = 9 || c.toNat = 10 || c.toNat = 13 ||
  c.toNat = 11 || c.toNat = 12 || c.toNat = 160

/-- Model of `String.prototype.toLowerCase` on ASCII: maps `A`–`Z` to
`a`–`z` and leaves everything else unchanged. -/
def jsLower (c : Char) : Char :=
  if 65 ≤ c.toNat ∧ c.toNat ≤ 90 then Char.ofNat (c.toNat + 32) else c

/-- `[a-z]` after lowercasing. -/
def isLowerAlpha (c : Char) : Bool := 97 ≤ c.toNat && c.toNat ≤ 122

/-- `[0-9]`. -/
def isDigitCh (c : Char) : Bool := 48 ≤ c.toNat && c.toNat ≤ 57

/-- The character class kept by slugify's strip step: the complement of
`[^a-z0-9\s\-]`, i.e. `[a-z0-9\s\-]`. -/
def keepChar (c : Char) : Bool :=
  isLowerAlpha c || isDigitCh c || isWs c || c == '-'

/-- JS `\w` character class `[A-Za-z0-9_]` (used by the simple variant's
anchor computation `[^\w]+`). -/
def isWordChar (c : Char) : Bool :=
  isLowerAlpha c || (65 ≤ c.toNat && c.toNat ≤ 90) || isDigitCh c || c.toNat = 95

/-- Model of `String.prototype.trim`. -/
def jsTrim (l : List Char) : List Char :=
  ((l.dropWhile isWs).reverse.dropWhile isWs).reverse

/-- `concatMap` over characters, used to model character-local regex
replacements such as `.replace(/&/g, 'and')`. -/
def charConcat (f : Char → List Char) : List Char → List Char
  | [] => []
  | c :: rest => f c ++ charConcat f rest

/-- The per-character replacement of `.replace(/&/g, 'and')`. -/
def ampersandAnd (c : Char) : List Char :=
  if c = '&' then ['a', 'n', 'd'] else [c]

/-- `squash p r` models the global regex replacement of every maximal run of
characters satisfying `p` by the single character `r` (e.g. `\s+` → `-`,
`\-+` → `-`, `[^\w]+` → `-`, `\s+` → a space). -/
def squash (p : Char → Bool) (r : Char) : List Char → List Char
  | [] => []
  | [c] => if p c then [r] else [c]
  | c :: d :: rest =>
    if p c && p d then squash p r (d :: rest)
    else (if p c then r else c) :: squash p r (d :: rest)

/-- The `^\-` part of the global regex `^\-|\-$`: remove one leading
hyphen when present. -/
def dropLeadHyphen (l : List Char) : List Char :=
  match l with
  | c :: rest => if c = '-' then rest else c :: rest
  | [] => []

/-- Remove one trailing hyphen when present (the `\-$` part of
`/^\-|\-$/g`, applied after the leading one as the global regex does). -/
def dropTrailHyphen (l : List Char) : List Char :=
  (dropLeadHyphen l.reverse).reverse

/-- `.replace(/^\-|\-$/g, '')`: one leading and one trailing hyphen removed. -/
def trimHyphenEnds (l : List Char) : List Char :=
  dropTrailHyphen (dropLeadHyphen l)

/- ===================== The three anchor computations ==================== -/

/-- The common core of `slugify` after the initial `trim()`: lowercase,
replace `&` by `and`, strip everything outside `[a-z0-9\s\-]`. -/
def slugCore (l : List Char) : List Char :=
  (charConcat ampersandAnd (l.map jsLower)).filter keepChar

/-- `squash` applied with `\s` and replacement `-`:
`.replace(/\s+/g, '-')`. -/
def squashWsHyphen (l : List Char) : List Char := squash isWs '-' l

/-- `.replace(/\-+/g, '-')`. -/
def squashHyphens (l : List Char) : List Char := squash (fun c => c == '-') '-' l

/-- `slugify` from `utils/postprocess-search-index.js` (the identical copy
appears twice in `unnamed/part_001`):
trim, toLowerCase, `&`→`and`, strip `[^a-z0-9\s\-]`, `\s+`→`-`, `\-+`→`-`,
`^\-|\-$`→``. -/
def slugify (s : List Char) : List Char :=
  trimHyphenEnds (squashHyphens (squashWsHyphen (slugCore (jsTrim s))))

/-- Trim all leading hyphens (`dropWhile`). -/
def hyphenDropLeft (l : List Char) : List Char :=
  l.dropWhile (fun c => c == '-')

/-- Trim all leading and trailing hyphens. -/
def hyphenTrimAll (l : List Char) : List Char :=
  (hyphenDropLeft (hyphenDropLeft l).reverse).reverse

/-- The anchor algorithm exactly as the spec words it: "lowercasing the title,
replacing each `&` with the word `and`, stripping every character outside
`[a-z0-9\s-]`, collapsing whitespace runs to single hyphens, collapsing
repeated hyphens, and trimming leading/trailing hyphens".  Written from the
spec's words, to be compared with `slugify` (which additionally starts with a
`trim()` and removes one hyphen per end only). -/
def specAnchor (s : List Char) : List Char :=
  hyphenTrimAll (squashHyphens (squashWsHyphen (slugCore s)))

/-- The anchor computation of the simple variant (`unnamed/part_000`,
`buildIndex`): `title.toLowerCase().replace(/[^\w]+/g, "-").replace(/^-|-$/g, "")`. -/
def anchor000 (title : List Char) : List Char :=
  trimHyphenEnds (squash (fun c => !(isWordChar c)) '-' (title.map jsLower))

/- ===================== Lemmas: squash, trimming, slugCore =============== -/

theorem charConcat_append (f : Char → List Char) (a b : List Char) :
    charConcat f (a ++ b) = charConcat f a ++ charConcat f b := by
  induction a with
  | nil => rfl
  | cons c rest ih => simp [charConcat, ih]

theorem slugCore_append (a b : List Char) :
    slugCore (a ++ b) = slugCore a ++ slugCore b := by
  simp [slugCore, charConcat_append, List.filter_append]

theorem isWs_cases {c : Char} (h : isWs c = true) :
    c.toNat = 32 ∨ c.toNat = 9 ∨ c.toNat = 10 ∨ c.toNat = 13 ∨
    c.toNat = 11 ∨ c.toNat = 12 ∨ c.toNat = 160 := by
  simpa [isWs, Bool.or_eq_true, decide_eq_true_iff, or_assoc] using h

theorem isWs_jsLower {c : Char} (h : isWs c = true) : jsLower c = c := by
  have := isWs_cases h
  unfold jsLower
  rw [if_neg]
  omega

theorem isWs_amp {c : Char} (h : isWs c = true) : ampersandAnd c = [c] := by
  unfold ampersandAnd
  rw [if_neg]
  intro hc
  subst hc
  exact absurd h (by decide)

theorem isWs_keep {c : Char} (h : isWs c = true) : keepChar c = true := by
  simp [keepChar, h]

theorem slugCore_ws {w : List Char} (hw : ∀ c ∈ w, isWs c = true) :
    slugCore w = w := by
  induction w with
  | nil => rfl
  | cons c rest ih =>
    have hc : isWs c = true := hw c (List.mem_cons_self c rest)
    have hrest : ∀ d ∈ rest, isWs d = true := fun d hd => hw d (List.mem_cons_of_mem c hd)
    simp [slugCore, charConcat] at ih ⊢
    rw [isWs_jsLower hc, isWs_amp hc]
    simp [List.filter_cons, isWs_keep hc, ih hrest]

theorem jsTrim_decomp (s : List Char) :
    ∃ w w2, s = w ++ jsTrim s ++ w2 ∧ (∀ c ∈ w, isWs c = true) ∧
      (∀ c ∈ w2, isWs c = true) := by
  refine ⟨s.takeWhile isWs, ((s.dropWhile isWs).reverse.takeWhile isWs).reverse, ?_, ?_, ?_⟩
  · have h1 : s = s.takeWhile isWs ++ s.dropWhile isWs :=
      (List.takeWhile_append_dropWhile (p := isWs) (l := s)).symm
    have h2 : (s.dropWhile isWs).reverse =
        (s.dropWhile isWs).reverse.takeWhile isWs ++ (s.dropWhile isWs).reverse.dropWhile isWs :=
      (List.takeWhile_append_dropWhile (p := isWs)
        (l := (s.dropWhile isWs).reverse)).symm
    have h3 : s.dropWhile isWs =
        jsTrim s ++ ((s.dropWhile isWs).reverse.takeWhile isWs).reverse := by
      have h4 := congrArg List.reverse h2
      rw [List.reverse_reverse, List.reverse_append] at h4
      exact h4
    calc s = s.takeWhile isWs ++ s.dropWhile isWs := h1
    _ = s.takeWhile isWs ++ (jsTrim s ++ ((s.dropWhile isWs).reverse.takeWhile isWs).reverse) := by
        rw [← h3]
    _ = s.takeWhile isWs ++ jsTrim s ++ ((s.dropWhile isWs).reverse.takeWhile isWs).reverse := by
        rw [List.append_assoc]
  · exact fun c hc => List.mem_takeWhile_imp hc
  · intro c hc
    rw [List.mem_reverse] at hc
    exact List.mem_takeWhile_imp hc

theorem squash_all_p (p : Char → Bool) (r : Char) :
    ∀ w, (∀ c ∈ w, p c = true) → w ≠ [] → squash p r w = [r] := by
  intro w
  induction w with
  | nil => intro _ h; exact absurd rfl h
  | cons c rest ih =>
    intro hall _
    have hc : p c = true := hall c (List.mem_cons_self c rest)
    cases rest with
    | nil => simp [squash, hc]
    | cons d rest2 =>
      have hd : p d = true := hall d (by simp)
      have : squash p r (d :: rest2) = [r] :=
        ih (fun e he => hall e (List.mem_cons_of_mem c he)) (by simp)
      simp [squash, hc, hd, this]

theorem squash_cons_not_p (p : Char → Bool) (r : Char) (d : Char) (rest : List Char)
    (hd : p d = false) : squash p r (d :: rest) = d :: squash p r rest := by
  cases rest with
  | nil => simp [squash, hd]
  | cons e rest2 => simp [squash, hd]

theorem squash_ws_prefix (p : Char → Bool) (r : Char) (w u : List Char)
    (hw : ∀ c ∈ w, p c = true) :
    squash p r (w ++ u) = squash p r u ∨ squash p r (w ++ u) = r :: squash p r u := by
  induction w with
  | nil => left; rfl
  | cons c w1 ih =>
    have hc : p c = true := hw c (List.mem_cons_self c w1)
    have hw1 : ∀ d ∈ w1, p d = true := fun d hd => hw d (List.mem_cons_of_mem c hd)
    have ih2 := ih hw1
    cases h1u : (w1 ++ u) with
    | nil =>
      rcases List.append_eq_nil.mp h1u with ⟨h1, h2⟩
      subst h1; subst h2
      right
      simp [squash, hc]
    | cons d rest =>
      by_cases hd : p d = true
      · have : squash p r (c :: w1 ++ u) = squash p r (w1 ++ u) := by
          rw [show c :: w1 ++ u = c :: (w1 ++ u) from rfl, h1u]
          simp [squash, hc, hd, ← h1u]
        rw [this]
        exact ih2
      · -- the head of w1 ++ u fails p, so w1 must be empty
        cases w1 with
        | cons e w2 =>
          rw [List.cons_append, List.cons.injEq] at h1u
          obtain ⟨he, -⟩ := h1u
          subst he
          exact absurd (hw1 e (List.mem_cons_self e w2)) (by simpa using hd)
        | nil =>
          simp only [List.nil_append] at h1u
          right
          have hd2 : p d = false := Bool.eq_false_iff.mpr hd
          rw [show (c :: ([] : List Char)) ++ u = c :: u from rfl, h1u]
          simp [squash, hc, hd2]

theorem squash_suffix (p : Char → Bool) (r : Char) (u w : List Char)
    (hw : ∀ c ∈ w, p c = true) :
    squash p r (u ++ w) = squash p r u ∨ squash p r (u ++ w) = squash p r u ++ [r] := by
  induction u with
  | nil =>
    cases w with
    | nil => left; rfl
    | cons d w2 =>
      right
      rw [List.nil_append, squash_all_p p r (d :: w2) hw (by simp)]
      rfl
  | cons c u1 ih =>
    cases u1 with
    | nil =>
      cases w with
      | nil => left; rfl
      | cons d w2 =>
        have hd : p d = true := hw d (List.mem_cons_self d w2)
        have hall : squash p r (d :: w2) = [r] := squash_all_p p r (d :: w2) hw (by simp)
        by_cases hc : p c = true
        · left
          simp [squash, hc, hd, hall]
        · right
          have hc2 : p c = false := Bool.eq_false_iff.mpr hc
          rw [show [c] ++ d :: w2 = c :: d :: w2 from rfl]
          rw [squash_cons_not_p p r c (d :: w2) hc2, hall]
          simp [squash, hc2]
    | cons d u2 =>
      rw [List.cons_append] at ih
      have hshape : (c :: d :: u2) ++ w = c :: d :: (u2 ++ w) := rfl
      by_cases hcd : (p c && p d) = true
      · rw [hshape]
        have e1 : squash p r (c :: d :: (u2 ++ w)) = squash p r (d :: (u2 ++ w)) := by
          simp [squash, hcd]
        have e2 : squash p r (c :: d :: u2) = squash p r (d :: u2) := by
          simp [squash, hcd]
        rw [e1, e2]
        exact ih
      · rw [hshape]
        have hcd2 : (p c && p d) = false := Bool.eq_false_iff.mpr hcd
        have e1 : squash p r (c :: d :: (u2 ++ w)) =
            (if p c then r else c) :: squash p r (d :: (u2 ++ w)) := by
          simp [squash, hcd2]
        have e2 : squash p r (c :: d :: u2) =
            (if p c then r else c) :: squash p r (d :: u2) := by
          simp [squash, hcd2]
        rw [e1, e2]
        rcases ih with h | h
        · left; rw [h]
        · right; rw [h]; rfl

/-- No two adjacent hyphens (the shape of any `\-+`-collapsed string). -/
def NoAdjHyphens (l : List Char) : Prop :=
  List.Chain' (fun a b => ¬(a = '-' ∧ b = '-')) l

theorem noAdjHyphens_reverse {l : List Char} (h : NoAdjHyphens l) :
    NoAdjHyphens l.reverse := by
  unfold NoAdjHyphens at h ⊢
  rw [List.chain'_reverse]
  exact h.imp (fun {a b} hab => by
    intro hba
    exact hab ⟨hba.2, hba.1⟩)

theorem squashHyphens_noAdj (l : List Char) : NoAdjHyphens (squashHyphens l) := by
  induction l with
  | nil => exact List.chain'_nil
  | cons c rest ih =>
    cases rest with
    | nil =>
      unfold squashHyphens squash
      split <;> exact List.chain'_singleton _
    | cons d rest2 =>
      by_cases hcd : ((c == '-') && (d == '-')) = true
      · have : squashHyphens (c :: d :: rest2) = squashHyphens (d :: rest2) := by
          simp only [squashHyphens, squash, hcd, if_true]
        rw [this]; exact ih
      · have hcd2 : ((c == '-') && (d == '-')) = false := Bool.eq_false_iff.mpr hcd
        have hstep : squashHyphens (c :: d :: rest2) =
            (if c == '-' then '-' else c) :: squashHyphens (d :: rest2) := by
          simp only [squashHyphens, squash, hcd2]
          rfl
        rw [hstep]
        by_cases hc : (c == '-') = true
        · -- then d is not a hyphen, and the tail starts with d
          have hd : (d == '-') = false := by
            cases hd : (d == '-') with
            | false => rfl
            | true => rw [hc, hd] at hcd2; exact absurd hcd2 (by simp)
          have htail : squashHyphens (d :: rest2) = d :: squashHyphens rest2 :=
            squash_cons_not_p _ '-' d rest2 hd
          rw [hc, if_pos rfl, htail]
          refine List.chain'_cons.mpr ⟨?_, ?_⟩
          · intro hpair
            have : d = '-' := hpair.2
            simp [this] at hd
          · rw [← htail]; exact ih
        · have hc2 : (c == '-') = false := Bool.eq_false_iff.mpr hc
          rw [hc2]
          simp only [Bool.false_eq_true, if_false]
          refine List.chain'_cons'.mpr ⟨?_, ih⟩
          · intro b _
            intro hpair
            have : c = '-' := hpair.1
            simp [this] at hc2

theorem dropLeadHyphen_cons (c : Char) (z1 : List Char) :
    dropLeadHyphen (c :: z1) = if c = '-' then z1 else c :: z1 := rfl

theorem noAdjHyphens_dropLead {z : List Char} (h : NoAdjHyphens z) :
    NoAdjHyphens (dropLeadHyphen z) := by
  cases z with
  | nil => exact h
  | cons c z1 =>
    rw [dropLeadHyphen_cons]
    by_cases hc : c = '-'
    · rw [if_pos hc]
      exact (List.chain'_cons'.mp h).2
    · rw [if_neg hc]
      exact h

theorem dropLeadHyphen_eq_dropLeft {z : List Char} (h : NoAdjHyphens z) :
    dropLeadHyphen z = hyphenDropLeft z := by
  cases z with
  | nil => rfl
  | cons c z1 =>
    rw [dropLeadHyphen_cons]
    unfold hyphenDropLeft
    by_cases hc : c = '-'
    · subst hc
      rw [if_pos rfl, List.dropWhile_cons]
      simp only [beq_self_eq_true, if_true]
      cases z1 with
      | nil => rfl
      | cons d z2 =>
        have hd : ¬(d = '-') := by
          have := (List.chain'_cons.mp h).1
          intro hd2
          exact this ⟨rfl, hd2⟩
        rw [List.dropWhile_cons, if_neg (by simpa using hd)]
    · rw [if_neg hc, List.dropWhile_cons, if_neg (by simpa using hc)]

theorem trimHyphenEnds_eq_trimAll {z : List Char} (h : NoAdjHyphens z) :
    trimHyphenEnds z = hyphenTrimAll z := by
  unfold trimHyphenEnds dropTrailHyphen hyphenTrimAll
  rw [dropLeadHyphen_eq_dropLeft h]
  rw [dropLeadHyphen_eq_dropLeft (noAdjHyphens_reverse ?hh)]
  case hh =>
    rw [← dropLeadHyphen_eq_dropLeft h]
    exact noAdjHyphens_dropLead h

theorem hyphenDropLeft_cons_hyphen (z : List Char) :
    hyphenDropLeft ('-' :: z) = hyphenDropLeft z := by
  unfold hyphenDropLeft
  rw [List.dropWhile_cons]
  simp

theorem hyphenDropLeft_append (z w : List Char) :
    hyphenDropLeft (z ++ w) =
      if (hyphenDropLeft z).isEmpty then hyphenDropLeft w
      else hyphenDropLeft z ++ w := by
  induction z with
  | nil => simp [hyphenDropLeft]
  | cons c z1 ih =>
    by_cases hc : c = '-'
    · subst hc
      simp only [hyphenDropLeft, List.cons_append, List.dropWhile_cons,
        beq_self_eq_true, if_true] at ih ⊢
      exact ih
    · have hc2 : (c == '-') = false := by simpa using hc
      simp only [hyphenDropLeft, List.cons_append, List.dropWhile_cons, hc2]
      simp

theorem hyphenTrimAll_cons_hyphen (z : List Char) :
    hyphenTrimAll ('-' :: z) = hyphenTrimAll z := by
  unfold hyphenTrimAll
  rw [hyphenDropLeft_cons_hyphen]

theorem hyphenTrimAll_concat_hyphen (z : List Char) :
    hyphenTrimAll (z ++ ['-']) = hyphenTrimAll z := by
  unfold hyphenTrimAll
  rw [hyphenDropLeft_append]
  by_cases hz : (hyphenDropLeft z).isEmpty = true
  · rw [if_pos hz]
    have h0 : hyphenDropLeft z = [] := by
      cases h : hyphenDropLeft z with
      | nil => rfl
      | cons a b => rw [h] at hz; exact absurd hz (by simp)
    have h1 : hyphenDropLeft ['-'] = ([] : List Char) := by
      simp [hyphenDropLeft]
    rw [h0, h1]
  · rw [if_neg hz, List.reverse_append, List.reverse_singleton,
      List.singleton_append, hyphenDropLeft_cons_hyphen]

theorem trimSquash_cons_hyphen (y : List Char) :
    hyphenTrimAll (squashHyphens ('-' :: y)) = hyphenTrimAll (squashHyphens y) := by
  cases y with
  | nil =>
    have h1 : squashHyphens ['-'] = ['-'] := by simp [squashHyphens, squash]
    have h2 : squashHyphens [] = ([] : List Char) := rfl
    rw [h1, h2]
    rfl
  | cons d rest =>
    by_cases hd : d = '-'
    · subst hd
      have : squashHyphens ('-' :: '-' :: rest) = squashHyphens ('-' :: rest) := by
        simp [squashHyphens, squash]
      rw [this]
    · have hd2 : (d == '-') = false := by simpa using hd
      have : squashHyphens ('-' :: d :: rest) = '-' :: squashHyphens (d :: rest) := by
        simp [squashHyphens, squash, hd2]
      rw [this, hyphenTrimAll_cons_hyphen]

theorem trimSquash_concat_hyphen (y : List Char) :
    hyphenTrimAll (squashHyphens (y ++ ['-'])) = hyphenTrimAll (squashHyphens y) := by
  rcases squash_suffix (fun c => c == '-') '-' y ['-'] (by simp) with h | h
  · rw [show squashHyphens (y ++ ['-']) = squash (fun c => c == '-') '-' (y ++ ['-']) from rfl, h]
    rfl
  · rw [show squashHyphens (y ++ ['-']) = squash (fun c => c == '-') '-' (y ++ ['-']) from rfl, h]
    exact hyphenTrimAll_concat_hyphen _

/-- `slugify` coincides, on every input, with the anchor algorithm exactly as
the spec words it (`specAnchor`): the initial `trim()` and the
one-hyphen-per-end trimming of the implementation make no observable
difference. -/
theorem slugify_eq_specAnchor (s : List Char) : slugify s = specAnchor s := by
  have h1 : slugify s =
      hyphenTrimAll (squashHyphens (squashWsHyphen (slugCore (jsTrim s)))) := by
    unfold slugify
    exact trimHyphenEnds_eq_trimAll (squashHyphens_noAdj _)
  obtain ⟨w, w2, hs, hw, hw2⟩ := jsTrim_decomp s
  have h2 : slugCore s = w ++ (slugCore (jsTrim s) ++ w2) := by
    conv_lhs => rw [hs]
    rw [slugCore_append, slugCore_append, slugCore_ws hw, slugCore_ws hw2,
      List.append_assoc]
  have h3 := squash_ws_prefix isWs '-' w (slugCore (jsTrim s) ++ w2) hw
  have h4 := squash_suffix isWs '-' (slugCore (jsTrim s)) w2 hw2
  have hmid : hyphenTrimAll (squashHyphens (squash isWs '-' (slugCore (jsTrim s) ++ w2))) =
      hyphenTrimAll (squashHyphens (squashWsHyphen (slugCore (jsTrim s)))) := by
    rcases h4 with h | h
    · rw [h]; rfl
    · rw [h]
      exact trimSquash_concat_hyphen _
  have h5 : specAnchor s =
      hyphenTrimAll (squashHyphens (squash isWs '-' (w ++ (slugCore (jsTrim s) ++ w2)))) := by
    unfold specAnchor squashWsHyphen
    rw [h2]
  rcases h3 with h | h
  · rw [h5, h, hmid, ← h1]
  · rw [h5, h, trimSquash_cons_hyphen, hmid, ← h1]

/- ===================== Lemmas for idempotence of slugify ================ -/

theorem squash_mem {p : Char → Bool} {r : Char} {l : List Char} {c : Char}
    (h : c ∈ squash p r l) : c = r ∨ (c ∈ l ∧ p c = false) := by
  induction l with
  | nil => simp [squash] at h
  | cons a rest ih =>
    cases rest with
    | nil =>
      by_cases ha : p a = true
      · simp [squash, ha] at h
        left; exact h
      · have ha2 : p a = false := Bool.eq_false_iff.mpr ha
        simp [squash, ha2] at h
        right
        exact ⟨by simp [h], h ▸ ha2⟩
    | cons b rest2 =>
      by_cases hab : (p a && p b) = true
      · rw [show squash p r (a :: b :: rest2) = squash p r (b :: rest2) by
          simp [squash, hab]] at h
        rcases ih h with h1 | ⟨hm, hp⟩
        · left; exact h1
        · right; exact ⟨List.mem_cons_of_mem a hm, hp⟩
      · have hab2 : (p a && p b) = false := Bool.eq_false_iff.mpr hab
        rw [show squash p r (a :: b :: rest2) =
            (if p a then r else a) :: squash p r (b :: rest2) by
          simp [squash, hab2]] at h
        rcases List.mem_cons.mp h with h1 | h1
        · by_cases ha : p a = true
          · rw [if_pos ha] at h1; left; exact h1
          · have ha2 : p a = false := Bool.eq_false_iff.mpr ha
            rw [if_neg (by simp [ha2])] at h1
            right
            exact ⟨by simp [h1], h1 ▸ ha2⟩
        · rcases ih h1 with h2 | ⟨hm, hp⟩
          · left; exact h2
          · right; exact ⟨List.mem_cons_of_mem a hm, hp⟩

theorem mem_dropLeadHyphen {l : List Char} {c : Char} (h : c ∈ dropLeadHyphen l) :
    c ∈ l := by
  cases l with
  | nil => exact h
  | cons a rest =>
    rw [dropLeadHyphen_cons] at h
    by_cases ha : a = '-'
    · rw [if_pos ha] at h; exact List.mem_cons_of_mem a h
    · rw [if_neg ha] at h; exact h

theorem mem_trimHyphenEnds {l : List Char} {c : Char} (h : c ∈ trimHyphenEnds l) :
    c ∈ l := by
  unfold trimHyphenEnds dropTrailHyphen at h
  rw [List.mem_reverse] at h
  have h2 := mem_dropLeadHyphen h
  rw [List.mem_reverse] at h2
  exact mem_dropLeadHyphen h2

/-- The characters a slug can contain: `[a-z0-9-]`. -/
def slugChar (c : Char) : Bool := isLowerAlpha c || isDigitCh c || c == '-'

theorem slugChar_cases {c : Char} (h : slugChar c = true) :
    (97 ≤ c.toNat ∧ c.toNat ≤ 122) ∨ (48 ≤ c.toNat ∧ c.toNat ≤ 57) ∨ c = '-' := by
  simpa [slugChar, isLowerAlpha, isDigitCh, Bool.or_eq_true, decide_eq_true_iff,
    beq_iff_eq, and_assoc, or_assoc] using h

theorem slugify_chars {s : List Char} : ∀ c ∈ slugify s, slugChar c = true := by
  intro c hc
  unfold slugify at hc
  have h1 := mem_trimHyphenEnds hc
  rcases squash_mem h1 with h2 | ⟨h2, -⟩
  · simp [slugChar, h2]
  · rcases squash_mem h2 with h3 | ⟨h3, hws⟩
    · simp [slugChar, h3]
    · have hk : keepChar c = true := List.of_mem_filter h3
      rw [keepChar, hws] at hk
      simp only [Bool.or_false, Bool.or_eq_true] at hk
      rcases hk with (hk | hk) | hk
      · simp [slugChar, hk]
      · simp [slugChar, hk]
      · simp [slugChar, hk]

theorem slugChar_not_ws {c : Char} (h : slugChar c = true) : isWs c = false := by
  rcases slugChar_cases h with h1 | h1 | h1
  · simp [isWs, decide_eq_true_iff]; omega
  · simp [isWs, decide_eq_true_iff]; omega
  · subst h1; decide

theorem slugChar_jsLower {c : Char} (h : slugChar c = true) : jsLower c = c := by
  rcases slugChar_cases h with h1 | h1 | h1
  · unfold jsLower; rw [if_neg]; omega
  · unfold jsLower; rw [if_neg]; omega
  · subst h1; decide

theorem slugChar_amp {c : Char} (h : slugChar c = true) : ampersandAnd c = [c] := by
  rcases slugChar_cases h with h1 | h1 | h1
  · unfold ampersandAnd
    rw [if_neg]
    intro heq
    rw [heq] at h1
    revert h1
    decide
  · unfold ampersandAnd
    rw [if_neg]
    intro heq
    rw [heq] at h1
    revert h1
    decide
  · subst h1; decide

theorem slugChar_keep {c : Char} (h : slugChar c = true) : keepChar c = true := by
  simp only [slugChar, Bool.or_eq_true] at h
  rcases h with (h1 | h1) | h1 <;> simp [keepChar, h1]

theorem dropWhile_eq_self_of_none {p : Char → Bool} {l : List Char}
    (h : ∀ c ∈ l, p c = false) : l.dropWhile p = l := by
  cases l with
  | nil => rfl
  | cons a rest =>
    rw [List.dropWhile_cons, if_neg]
    simp [h a (List.mem_cons_self a rest)]

theorem squash_eq_self_of_none {p : Char → Bool} {r : Char} {l : List Char}
    (h : ∀ c ∈ l, p c = false) : squash p r l = l := by
  induction l with
  | nil => rfl
  | cons a rest ih =>
    have ha : p a = false := h a (List.mem_cons_self a rest)
    rw [squash_cons_not_p p r a rest ha, ih (fun c hc => h c (List.mem_cons_of_mem a hc))]

theorem squashHyphens_eq_self_of_noAdj {l : List Char} (h : NoAdjHyphens l) :
    squashHyphens l = l := by
  induction l with
  | nil => rfl
  | cons a rest ih =>
    cases rest with
    | nil =>
      by_cases ha : a = '-'
      · subst ha; rfl
      · simp [squashHyphens, squash, ha]
    | cons b rest2 =>
      have hab : ¬(a = '-' ∧ b = '-') := (List.chain'_cons.mp h).1
      have htail := ih ((List.chain'_cons'.mp h).2)
      have hab2 : ((a == '-') && (b == '-')) = false := by
        by_cases ha : a = '-'
        · by_cases hb : b = '-'
          · exact absurd ⟨ha, hb⟩ hab
          · simp [hb]
        · simp [ha]
      have hstep : squashHyphens (a :: b :: rest2) =
          (if a == '-' then '-' else a) :: squashHyphens (b :: rest2) := by
        simp only [squashHyphens, squash, hab2]
        rfl
      rw [hstep, htail]
      by_cases ha : a = '-'
      · subst ha; rfl
      · simp [ha]

theorem head_dropWhile_false {p : Char → Bool} :
    ∀ (x : List Char) {a : Char}, (x.dropWhile p).head? = some a → p a = false := by
  intro x
  induction x with
  | nil => intro a h; simp at h
  | cons c rest ih =>
    intro a h
    by_cases hc : p c = true
    · rw [List.dropWhile_cons, if_pos hc] at h
      exact ih h
    · have hc2 : p c = false := Bool.eq_false_iff.mpr hc
      rw [List.dropWhile_cons, if_neg (by simp [hc2])] at h
      simp only [List.head?_cons, Option.some.injEq] at h
      rw [← h]
      exact hc2

theorem getLast_dropWhile_ne {p : Char → Bool} :
    ∀ (x : List Char), x.dropWhile p ≠ [] → (x.dropWhile p).getLast? = x.getLast? := by
  intro x
  induction x with
  | nil => intro h; exact absurd rfl h
  | cons c rest ih =>
    intro h
    by_cases hc : p c = true
    · rw [List.dropWhile_cons, if_pos hc] at h ⊢
      rw [ih h]
      have hrest : rest ≠ [] := by
        intro heq
        rw [heq] at h
        exact h rfl
      cases rest with
      | nil => exact absurd rfl hrest
      | cons d rest2 => rw [List.getLast?_cons_cons]
    · have hc2 : p c = false := Bool.eq_false_iff.mpr hc
      rw [List.dropWhile_cons, if_neg (by simp [hc2])]

theorem dropLeft_of_head {x : List Char}
    (h : ∀ a, x.head? = some a → (a == '-') = false) : hyphenDropLeft x = x := by
  cases x with
  | nil => rfl
  | cons a rest =>
    unfold hyphenDropLeft
    rw [List.dropWhile_cons, if_neg]
    simp [h a rfl]

theorem hyphenDropLeft_idem (x : List Char) :
    hyphenDropLeft (hyphenDropLeft x) = hyphenDropLeft x := by
  apply dropLeft_of_head
  intro a ha
  have ha2 : (x.dropWhile (fun c => c == '-')).head? = some a := ha
  exact head_dropWhile_false (p := fun c => c == '-') x ha2

theorem dropLeft_trimAll (z : List Char) :
    hyphenDropLeft (hyphenTrimAll z) = hyphenTrimAll z := by
  unfold hyphenTrimAll
  cases hv : hyphenDropLeft ((hyphenDropLeft z).reverse) with
  | nil => rfl
  | cons a l =>
    apply dropLeft_of_head
    intro b hb
    rw [List.head?_reverse] at hb
    have hne : hyphenDropLeft ((hyphenDropLeft z).reverse) ≠ [] := by
      rw [hv]; simp
    have h1 : (hyphenDropLeft ((hyphenDropLeft z).reverse)).getLast? =
        ((hyphenDropLeft z).reverse).getLast? :=
      getLast_dropWhile_ne (p := fun c => c == '-') ((hyphenDropLeft z).reverse) hne
    rw [hv, List.getLast?_reverse] at h1
    rw [h1] at hb
    have hb2 : (z.dropWhile (fun c => c == '-')).head? = some b := hb
    exact head_dropWhile_false (p := fun c => c == '-') z hb2

theorem hyphenTrimAll_invol (z : List Char) :
    hyphenTrimAll (hyphenTrimAll z) = hyphenTrimAll z := by
  conv_lhs => rw [hyphenTrimAll]
  rw [dropLeft_trimAll]
  rw [show (hyphenTrimAll z).reverse = hyphenDropLeft ((hyphenDropLeft z).reverse) by
    unfold hyphenTrimAll; rw [List.reverse_reverse]]
  rw [hyphenDropLeft_idem]
  rfl

theorem noAdjHyphens_trimHyphenEnds {l : List Char} (h : NoAdjHyphens l) :
    NoAdjHyphens (trimHyphenEnds l) := by
  unfold trimHyphenEnds dropTrailHyphen
  exact noAdjHyphens_reverse (noAdjHyphens_dropLead (noAdjHyphens_reverse
    (noAdjHyphens_dropLead h)))

theorem slugify_noAdj (s : List Char) : NoAdjHyphens (slugify s) :=
  noAdjHyphens_trimHyphenEnds (squashHyphens_noAdj _)

theorem slugify_trimmed (s : List Char) : hyphenTrimAll (slugify s) = slugify s := by
  unfold slugify
  rw [trimHyphenEnds_eq_trimAll (squashHyphens_noAdj (squashWsHyphen (slugCore (jsTrim s))))]
  exact hyphenTrimAll_invol _

theorem map_id_of_mem {f : Char → Char} :
    ∀ {l : List Char}, (∀ c ∈ l, f c = c) → l.map f = l := by
  intro l
  induction l with
  | nil => intro _; rfl
  | cons a rest ih =>
    intro h
    rw [List.map_cons, h a (List.mem_cons_self a rest),
      ih (fun c hc => h c (List.mem_cons_of_mem a hc))]

theorem charConcat_id_of_mem {f : Char → List Char} :
    ∀ {l : List Char}, (∀ c ∈ l, f c = [c]) → charConcat f l = l := by
  intro l
  induction l with
  | nil => intro _; rfl
  | cons a rest ih =>
    intro h
    rw [show charConcat f (a :: rest) = f a ++ charConcat f rest from rfl,
      h a (List.mem_cons_self a rest),
      ih (fun c hc => h c (List.mem_cons_of_mem a hc))]
    rfl

/-- `slugify` is idempotent; shared core used by the claim about idempotence. -/
theorem slugify_idem (s : List Char) : slugify (slugify s) = slugify s := by
  have hchars := slugify_chars (s := s)
  have hno_ws : ∀ c ∈ slugify s, isWs c = false :=
    fun c hc => slugChar_not_ws (hchars c hc)
  have h1 : jsTrim (slugify s) = slugify s := by
    unfold jsTrim
    rw [dropWhile_eq_self_of_none hno_ws,
      dropWhile_eq_self_of_none (fun c hc => hno_ws c (List.mem_reverse.mp hc)),
      List.reverse_reverse]
  have h3 : slugCore (slugify s) = slugify s := by
    unfold slugCore
    rw [map_id_of_mem (fun c hc => slugChar_jsLower (hchars c hc)),
      charConcat_id_of_mem (fun c hc => slugChar_amp (hchars c hc)),
      List.filter_eq_self.mpr (fun c hc => slugChar_keep (hchars c hc))]
  have h4 : squashWsHyphen (slugify s) = slugify s :=
    squash_eq_self_of_none hno_ws
  have h5 : squashHyphens (slugify s) = slugify s :=
    squashHyphens_eq_self_of_noAdj (slugify_noAdj s)
  have h6 : trimHyphenEnds (slugify s) = slugify s := by
    rw [trimHyphenEnds_eq_trimAll (slugify_noAdj s)]
    exact slugify_trimmed s
  conv_lhs => rw [slugify]
  rw [h1, h3, h4, h5, h6]

/- ===================== Line splitting and heading parsing =============== -/

/-- Split a string on every occurrence of `sep` (JS `String.prototype.split`
with a single-character separator). -/
def splitOnChar (sep : Char) : List Char → List (List Char)
  | [] => [[]]
  | c :: rest =>
    match splitOnChar sep rest with
    | [] => [[]]
    | h :: t => if c = sep then [] :: h :: t else (c :: h) :: t

/-- Remove one trailing carriage return. -/
def dropTrailCR (l : List Char) : List Char :=
  if l.getLast? = some '\r' then l.dropLast else l

/-- `content.split(/\r?\n/)`: split on `\n`, each separator optionally
preceded by a `\r` that is consumed with it (so every piece but the last
loses one trailing `\r`). -/
def splitLinesCRLF (content : List Char) : List (List Char) :=
  match (splitOnChar '\n' content).reverse with
  | [] => []
  | last :: initRev => (initRev.reverse.map dropTrailCR) ++ [last]

/-- Does the list start with a JS whitespace character? -/
def headWs (l : List Char) : Bool :=
  match l.head? with
  | some c => isWs c
  | none => false

/-- Parse `/^(#{1,6})\s+(.*)$/` against one line: `1`–`6` leading `#`
characters, at least one whitespace character, and a remainder free of
carriage returns (`.` does not match `\r` and `$` must reach the end of the
line).  Returns the level and the trimmed title
(`m[1].length` and `m[2].trim()`). -/
def headingParse (line : List Char) : Option (Nat × List Char) :=
  let hashes := line.takeWhile (fun c => c == '#')
  let rest := line.dropWhile (fun c => c == '#')
  let afterWs := rest.dropWhile isWs
  if 1 ≤ hashes.length ∧ hashes.length ≤ 6 ∧ headWs rest = true ∧
      afterWs.all (fun c => !(c == '\r')) = true
  then some (hashes.length, jsTrim afterWs)
  else none

/-- Parse `/^#{2,3}\s+(.*)/` (the simple variant): `##` or `###`, whitespace,
and `m[1]` is the remainder up to the first carriage return (`.` stops there
but without `$` the match still succeeds).  Returns `m[1].trim()`. -/
def heading23Parse (line : List Char) : Option (List Char) :=
  let hashes := line.takeWhile (fun c => c == '#')
  let rest := line.dropWhile (fun c => c == '#')
  let afterWs := rest.dropWhile isWs
  if 2 ≤ hashes.length ∧ hashes.length ≤ 3 ∧ headWs rest = true
  then some (jsTrim (afterWs.takeWhile (fun c => !(c == '\r'))))
  else none

/- ===================== Breadcrumb titles ================================ -/

/-- JS array element assignment `a[i] = v`: when `i` is beyond the current
length the array is extended and the skipped slots become holes, modelled as
`none`. -/
def jsArraySet (l : List (Option (List Char))) (i : Nat) (v : List Char) :
    List (Option (List Char)) :=
  if i < l.length then l.set i (some v)
  else l ++ List.replicate (i - l.length) none ++ [some v]

/-- The breadcrumb maintenance of `extractSectionsFromMdx` on one heading:
`titles = parentTitles.slice(0, level - 1); titles[level - 1] = title;`
returning `(titles.slice(0, -1), titles)` — the emitted `titles` of the new
section and the new `parentTitles`. -/
def headingTitles (parentTitles : List (Option (List Char))) (level : Nat)
    (title : List Char) : List (Option (List Char)) × List (Option (List Char)) :=
  let titles := jsArraySet (parentTitles.take (level - 1)) (level - 1) title
  (titles.dropLast, titles)

/- ===================== Front matter (gray-matter model) ================= -/

/-- Split a list at the first occurrence of `pat`: `some (before, after)`
with the input equal to `before ++ pat ++ after`. -/
def splitAtSub (pat : List Char) : List Char → Option (List Char × List Char)
  | [] => none
  | c :: rest =>
    if pat.isPrefixOf (c :: rest) then some ([], (c :: rest).drop pat.length)
    else
      match splitAtSub pat rest with
      | some (a, b) => some (c :: a, b)
      | none => none

def fmOpen : List Char := "---\n".toList

def fmClose : List Char := "\n---\n".toList

def titleKey : List Char := "title:".toList

/-- Models the external `gray-matter` library's front-matter stripping: when
the document starts with a `---` line, the block runs to the next `---` line
and the content is everything after it; otherwise the whole document is
content.  (Only the `\n`-delimited form is modelled.) -/
def matterContent (raw : List Char) : List Char :=
  if fmOpen.isPrefixOf raw then
    match splitAtSub fmClose (raw.drop 4) with
    | some (_, rest) => rest
    | none => raw
  else raw

/-- Models the `title` entry of the front-matter data returned by the
external `gray-matter` library (a `title:` line inside the block); an empty
value is identified with absence, matching the `data.title || …` truthiness
test of the consumer. -/
def matterTitle (raw : List Char) : Option (List Char) :=
  if fmOpen.isPrefixOf raw then
    match splitAtSub fmClose (raw.drop 4) with
    | some (block, _) =>
      match (splitOnChar '\n' block).filter (fun l => titleKey.isPrefixOf l) with
      | [] => none
      | l :: _ =>
        let v := jsTrim (l.drop titleKey.length)
        if v.isEmpty then none else some v
    | none => none
  else none

/- ===================== Text cleanup scanners ============================ -/

/-- Not a line terminator (for the `m`-flag line boundaries `\n`/`\r`). -/
def notNl (c : Char) : Bool := !(c == '\n') && !(c == '\r')

def backtickFence : List Char := "```".toList

def tildeFence : List Char := "~~~".toList

/-- One pass of `.replace(/^XXX.*$/gm, '')` for a 3-character marker `XXX`:
every line starting with the marker becomes the empty line (only the marker
line is blanked; its contents and the line terminators stay). -/
def stripFenceLinesGo (marker : List Char) : Nat → List Char → List Char
  | 0, l => l
  | fuel + 1, l =>
    let line := l.takeWhile notNl
    let rest := l.dropWhile notNl
    let kept := if marker.isPrefixOf line then [] else line
    match rest with
    | [] => kept
    | sep :: rest2 => kept ++ sep :: stripFenceLinesGo marker fuel rest2

def stripFenceLines (marker : List Char) (l : List Char) : List Char :=
  stripFenceLinesGo marker l.length l

/-- `removeFences` of the index-patch variants:
`str.replace(/^三backtick.*$/gm, '').replace(/^~~~.*$/gm, '')` — the fence
marker lines are blanked, the fenced contents are kept. -/
def removeFences (s : List Char) : List Char :=
  stripFenceLines tildeFence (stripFenceLines backtickFence s)

/-- After at least one non-`>` character, find the closing `>`:
returns the remainder after it. -/
def tagCloseAfterOne : List Char → Option (List Char)
  | [] => none
  | c :: rest => if c = '>' then some rest else tagCloseAfterOne rest

/-- Match `[^>]*>` (or `[^>]+>` when `minOne`) at the given position. -/
def tagClose (minOne : Bool) : List Char → Option (List Char)
  | [] => none
  | c :: rest =>
    if c = '>' then (if minOne then none else some rest)
    else tagCloseAfterOne rest

/-- Global replacement of `<[^>]*>` (resp. `<[^>]+>` when `minOne`) by
`repl`, scanning left to right as the regex engine does. -/
def stripTagsGo (minOne : Bool) (repl : List Char) : Nat → List Char → List Char
  | 0, l => l
  | _, [] => []
  | fuel + 1, c :: rest =>
    if c = '<' then
      match tagClose minOne rest with
      | some after => repl ++ stripTagsGo minOne repl fuel after
      | none => c :: stripTagsGo minOne repl fuel rest
    else c :: stripTagsGo minOne repl fuel rest

def stripTags (minOne : Bool) (repl : List Char) (l : List Char) : List Char :=
  stripTagsGo minOne repl l.length l

/-- Line terminators that the JS `.` never matches. -/
def isRegexNl (c : Char) : Bool :=
  c == '\n' || c == '\r' || c.toNat = 8232 || c.toNat = 8233

/-- Lazy `\(.*?\)` tail: find the first `)` before any line terminator. -/
def parenClose : List Char → Option (List Char)
  | [] => none
  | c :: rest =>
    if c = ')' then some rest
    else if isRegexNl c then none
    else parenClose rest

/-- Lazy `.*?\]\(.*?\)` tail of the image regex after `![`: find the first
`](` whose parenthesis part closes, extending the lazy prefix past any `]`
that does not, failing at a line terminator. -/
def imgTail : List Char → Option (List Char)
  | [] => none
  | c :: rest =>
    if c = ']' then
      match rest with
      | '(' :: rest2 =>
        match parenClose rest2 with
        | some r => some r
        | none => imgTail rest
      | _ => imgTail rest
    else if isRegexNl c then none
    else imgTail rest

/-- Global replacement of the markdown image regex by the empty string
(the simple variant's `.replace` with `!\[.*?\]\(.*?\)`). -/
def imgStripGo : Nat → List Char → List Char
  | 0, l => l
  | _, [] => []
  | fuel + 1, c :: rest =>
    if c = '!' then
      match rest with
      | '[' :: rest2 =>
        match imgTail rest2 with
        | some after => imgStripGo fuel after
        | none => c :: imgStripGo fuel rest
      | _ => c :: imgStripGo fuel rest
    else c :: imgStripGo fuel rest

def imgStrip (l : List Char) : List Char := imgStripGo l.length l

/-- Global non-greedy removal of fenced blocks including contents:
`.replace(/XXX[whatever]*?XXX/gs-like, '')` with both delimiters being three
backticks — repeatedly remove from the first fence occurrence through the
next one; an unclosed opener leaves the rest unchanged. -/
def removeFencedBlocksGo : Nat → List Char → List Char
  | 0, l => l
  | fuel + 1, l =>
    match splitAtSub backtickFence l with
    | none => l
    | some (before, after) =>
      match splitAtSub backtickFence after with
      | none => l
      | some (_, after2) => before ++ removeFencedBlocksGo fuel after2

def removeFencedBlocks (l : List Char) : List Char := removeFencedBlocksGo l.length l

/-- `cleanMarkdown` from `unnamed/part_000`: remove fenced code blocks with
their contents, remove markdown images, remove HTML tags (`<[^>]+>` → empty),
collapse whitespace runs to single spaces, trim. -/
def cleanMarkdown (content : List Char) : List Char :=
  jsTrim (squash isWs ' ' (stripTags true [] (imgStrip (removeFencedBlocks content))))

/-- `extractTextFromMarkdown` from `unnamed/part_000`, with the external
`markdown-it` renderer `md.render` abstracted as a parameter: render the
cleaned markdown to HTML, replace tags by spaces, collapse whitespace,
trim. -/
def extractTextFromMarkdown (render : List Char → List Char) (content : List Char) :
    List Char :=
  jsTrim (squash isWs ' ' (stripTags true [' '] (render (cleanMarkdown content))))

/-- The per-section text post-processing of `extractSectionsFromMdx` in the
index-patch variants: `removeFences(chunks.join(newline)).replace(/<[^>]*>/g, '').trim()`. -/
def postprocessSectionText (joined : List Char) : List Char :=
  jsTrim (stripTags false [] (removeFences joined))

/-- `chunks.join('\n')`. -/
def joinNl : List (List Char) → List Char
  | [] => []
  | [c] => c
  | c :: d :: rest => c ++ '\n' :: joinNl (d :: rest)

/- ===================== Section extraction (index-patch) ================= -/

/-- State of one section while `extractSectionsFromMdx` scans lines. -/
structure RawSection where
  level : Nat
  title : List Char
  anchor : List Char
  titles : List (Option (List Char))
  chunks : List (List Char)
deriving DecidableEq

/-- A finished section of the index-patch extractor. -/
structure PSection where
  anchor : List Char
  title : List Char
  titles : List (Option (List Char))
  isPage : Bool
  text : List Char
deriving DecidableEq

/-- The line loop of `extractSectionsFromMdx`: a heading line pushes the
current section (if any) and starts a new one with breadcrumbs from
`headingTitles`; other lines are appended to the current section's chunks and
are ignored before the first heading; the last section is pushed at the
end. -/
def extractLoop : List (List Char) → Option RawSection →
    List (Option (List Char)) → List RawSection
  | [], none, _ => []
  | [], some cur, _ => [cur]
  | line :: rest, cur, parents =>
    match headingParse line with
    | some lt =>
      let t := headingTitles parents lt.1 lt.2
      let started : RawSection :=
        { level := lt.1, title := lt.2, anchor := slugify lt.2,
          titles := t.1, chunks := [] }
      (match cur with
       | some c => [c]
       | none => []) ++ extractLoop rest (some started) t.2
    | none =>
      match cur with
      | none => extractLoop rest none parents
      | some c => extractLoop rest (some { c with chunks := c.chunks ++ [line] }) parents

/-- `extractSectionsFromMdx` (identical in all three index-patch scripts):
strip front matter, split lines on `\r?\n`, run the heading loop, then map
each raw section to its final form, cleaning the joined chunks and marking
the first section as the page-level one. -/
def extractSectionsFromMdx (raw : List Char) : List PSection :=
  let content := matterContent raw
  let lines := splitLinesCRLF content
  (extractLoop lines none []).enum.map (fun p =>
    { anchor := p.2.anchor, title := p.2.title, titles := p.2.titles,
      isPage := p.1 == 0, text := postprocessSectionText (joinNl p.2.chunks) })

/- ===================== URLs ============================================= -/

def mdxExt : List Char := ".mdx".toList

def mdExt : List Char := ".md".toList

def slashIndexSeg : List Char := "/index".toList

/-- `.replace(/\.(md|mdx)$/i, '')`: strip a trailing `.md`/`.mdx`
extension case-insensitively. -/
def stripMdExt (rel : List Char) : List Char :=
  if mdxExt.isSuffixOf (rel.map jsLower) then rel.take (rel.length - 4)
  else if mdExt.isSuffixOf (rel.map jsLower) then rel.take (rel.length - 3)
  else rel

/-- `.replace(/\/index$/i, '')`: drop a trailing `/index` segment
(case-insensitively); a bare `index` with no preceding slash is not
affected. -/
def stripTrailIndex (p : List Char) : List Char :=
  if slashIndexSeg.isSuffixOf (p.map jsLower) then p.take (p.length - 6) else p

/-- `computeHref` of the index-patch variants, on the path already relative
to `docs/pages` with `/` separators (`normalizeSlashes ∘ path.relative`
abstracted): strip the extension, drop a trailing `/index`, prefix `/`. -/
def computeHref (relFromPages : List Char) : List Char :=
  '/' :: stripTrailIndex (stripMdExt relFromPages)

/-- The simple variant's URL base
(`"/" + relPath.replace(/\\/g, "/").replace(/\.mdx?$/, "")`): backslashes
normalized, a case-sensitive `.md`/`.mdx` extension stripped, no `/index`
collapsing at all. -/
def urlBase000 (relPath : List Char) : List Char :=
  let slashes := relPath.map (fun c => if c = '\\' then '/' else c)
  '/' :: (if mdxExt.isSuffixOf slashes then slashes.take (slashes.length - 4)
          else if mdExt.isSuffixOf slashes then slashes.take (slashes.length - 3)
          else slashes)

/- ===================== Decimal rendering of indices ===================== -/

/-- One decimal digit. -/
def decDigit (n : Nat) : Char :=
  match n with
  | 0 => '0' | 1 => '1' | 2 => '2' | 3 => '3' | 4 => '4'
  | 5 => '5' | 6 => '6' | 7 => '7' | 8 => '8' | _ => '9'

/-- Digit accumulation loop for decimal rendering; the fuel bounds the digit
count (any fuel at least the value itself is enough). -/
def natToDecGo : Nat → Nat → List Char → List Char
  | 0, n, acc => decDigit n :: acc
  | fuel + 1, n, acc =>
    if n < 10 then decDigit n :: acc
    else natToDecGo fuel (n / 10) (decDigit (n % 10) :: acc)

/-- Decimal rendering of a natural number (JS template `${i}`). -/
def natToDec (n : Nat) : List Char := natToDecGo n n []

/- ===================== Records and pipelines ============================ -/

/-- A MiniSearch document of the index-patch variants. -/
structure PRecord where
  href : List Char
  html : List Char
  id : List Char
  isPage : Bool
  text : List Char
  title : List Char
  titles : List (Option (List Char))
deriving DecidableEq

/-- The per-file record construction of the index-patch `main` loops
(`sections.forEach((section, i) => documents.push({...}))`): for each section
at position `i`, `href = hrefBase + "#" + anchor` and
`id = href + "::" + i`. -/
def docRecords (relPath raw : List Char) : List PRecord :=
  let sections := extractSectionsFromMdx raw
  let base := computeHref relPath
  sections.enum.map (fun p =>
    { href := base ++ '#' :: p.2.anchor, html := [],
      id := (base ++ '#' :: p.2.anchor) ++ ':' :: ':' :: natToDec p.1,
      isPage := p.2.isPage, text := p.2.text, title := p.2.title,
      titles := p.2.titles })

/-- All documents the index-patch `main` feeds to MiniSearch, over a corpus
of (path relative to the pages root, raw content) files; a file whose section
list is empty contributes nothing (the `sections.length === 0` continue). -/
def mainDocuments (corpus : List (List Char × List Char)) : List PRecord :=
  corpus.flatMap (fun d => docRecords d.1 d.2)

/-- A `{title, content, url}` record of the simple variant. -/
structure SRecord where
  title : List Char
  content : List Char
  url : List Char
deriving DecidableEq

/-- A section of the simple variant's `splitByHeadings`. -/
structure SimpleSection where
  title : List Char
  text : List Char
deriving DecidableEq

/-- The loop of `splitByHeadings`: lines accumulate (with their newline) into
the current section; a `##`/`###` heading closes the current section —
pushing it only when its accumulated text is non-blank — and starts a new
one; at the end the final section is pushed under the same condition. -/
def splitLoop : List (List Char) → SimpleSection → List SimpleSection
  | [], cur => if (jsTrim cur.text).isEmpty then [] else [cur]
  | line :: rest, cur =>
    match heading23Parse line with
    | some title =>
      (if (jsTrim cur.text).isEmpty then [] else [cur]) ++
        splitLoop rest { title := title, text := [] }
    | none => splitLoop rest { cur with text := cur.text ++ line ++ ['\n'] }

def introTitle : List Char := "Introduction".toList

/-- `splitByHeadings` from `unnamed/part_000`: split on `\n` and run the
loop starting from the implicit `Introduction` section. -/
def splitByHeadings (content : List Char) : List SimpleSection :=
  splitLoop (splitOnChar '\n' content) { title := introTitle, text := [] }

/-- Modelled from the spec: the section sequence "before empty-text
filtering" that `splitByHeadings` never materialises — the same loop but with
every section kept (the implicit leading section plus one section per
tracked heading). -/
def splitLoopAll : List (List Char) → SimpleSection → List SimpleSection
  | [], cur => [cur]
  | line :: rest, cur =>
    match heading23Parse line with
    | some title => cur :: splitLoopAll rest { title := title, text := [] }
    | none => splitLoopAll rest { cur with text := cur.text ++ line ++ ['\n'] }

/-- Modelled from the spec: `splitByHeadings` without the inline blank-text
filter. -/
def splitByHeadingsAll (content : List Char) : List SimpleSection :=
  splitLoopAll (splitOnChar '\n' content) { title := introTitle, text := [] }

/-- `path.basename(file, path.extname(file))`: final path segment without its
extension (a lone leading dot is not an extension separator).  Models the
external Node `path` module. -/
def basenameNoExt (p : List Char) : List Char :=
  let base := (p.reverse.takeWhile (fun c => !(c == '/'))).reverse
  let afterDotRev := base.reverse.takeWhile (fun c => !(c == '.'))
  if afterDotRev.length = base.length then base
  else if base.length - afterDotRev.length - 1 = 0 then base
  else base.take (base.length - afterDotRev.length - 1)

/-- The base title of a document in the simple variant:
`data.title || first line starting with '#' stripped of leading hashes and
whitespace || basename`; the middle alternative falls through when the
stripped title is empty (JS truthiness). -/
def baseTitleOf (fm : Option (List Char)) (content relPath : List Char) : List Char :=
  match fm with
  | some t => t
  | none =>
    match (splitOnChar '\n' content).find? (fun l => l.head? == some '#') with
    | some l =>
      let stripped := (l.dropWhile (fun c => c == '#')).dropWhile isWs
      if stripped.isEmpty then basenameNoExt relPath else stripped
    | none => basenameNoExt relPath

def sepTitle : List Char := " › ".toList

/-- One file of the simple variant's `buildIndex` loop: split front matter,
compute the base title and URL base, split by headings, and push one record
per section whose extracted text is non-empty (`if (!text) continue`);
`render` abstracts the external `markdown-it` renderer.  The record title
composes the base title with the section title when the latter is non-empty,
the content is capped at 3000 characters, and the URL carries the section
anchor except for the first section. -/
def fileRecords (render : List Char → List Char) (relPath raw : List Char) :
    List SRecord :=
  let content := matterContent raw
  let baseTitle := baseTitleOf (matterTitle raw) content relPath
  let urlBase := urlBase000 relPath
  (splitByHeadings content).enum.flatMap (fun p =>
    let text := extractTextFromMarkdown render p.2.text
    if text.isEmpty then []
    else [{ title := if p.2.title.isEmpty then baseTitle
                     else baseTitle ++ sepTitle ++ p.2.title,
            content := text.take 3000,
            url := if p.1 = 0 then urlBase
                   else urlBase ++ '#' :: anchor000 p.2.title }])

/-- `buildIndex` of `unnamed/part_000` over a corpus of (path relative to the
docs root, raw content) files. -/
def buildIndexRecords (render : List Char → List Char)
    (corpus : List (List Char × List Char)) : List SRecord :=
  corpus.flatMap (fun d => fileRecords render d.1 d.2)

/- ===================== Route filtering ================================== -/

/-- `d.href.split('#')[0]`. -/
def hrefBase (href : List Char) : List Char :=
  href.takeWhile (fun c => !(c == '#'))

/-- The route filtering of the first `unnamed/part_001` script's `main`:
`if (allowedRoutes && allowedRoutes.size > 0)` filter the documents to those
whose href with the fragment stripped is in the set. -/
def filterByRoutes (allowedRoutes : Option (List (List Char)))
    (documents : List PRecord) : List PRecord :=
  match allowedRoutes with
  | some routes =>
    if routes.length > 0 then
      documents.filter (fun d => routes.contains (hrefBase d.href))
    else documents
  | none => documents

/- ===================== Index-file discovery and main ==================== -/

/-- Lexicographic comparison of strings by code unit (JS default sort). -/
def lexLe : List Char → List Char → Bool
  | [], _ => true
  | _ :: _, [] => false
  | x :: xs, y :: ys => if x = y then lexLe xs ys else decide (x < y)

def insertSorted (x : List Char) : List (List Char) → List (List Char)
  | [] => [x]
  | y :: rest => if lexLe x y then x :: y :: rest else y :: insertSorted x rest

/-- `Array.prototype.sort()` model (insertion sort by `lexLe`). -/
def sortLex (l : List (List Char)) : List (List Char) :=
  l.foldr insertSorted []

def siPrefix : List Char := "search-index-".toList

def jsonSuffix : List Char := ".json".toList

/-- `/^search-index-.*\.json$/i`. -/
def isIndexFileName (name : List Char) : Bool :=
  let l := name.map jsLower
  siPrefix.isPrefixOf l && jsonSuffix.isSuffixOf (l.drop siPrefix.length)

/-- The candidate-directory scan of the index-patch `main`.  The file system
is abstracted as the candidate directories in scan order, each carrying
`none` when `existsSync` fails and `some entries` otherwise; the first
directory with a matching file wins, choosing `sort()[0]` among matches. -/
def findIndexFile (dirs : List (List Char × Option (List (List Char)))) :
    Option (List Char × List Char) :=
  match dirs with
  | [] => none
  | (dir, entries) :: rest =>
    match entries with
    | none => findIndexFile rest
    | some items =>
      match sortLex (items.filter isIndexFileName) with
      | [] => findIndexFile rest
      | f :: _ => some (dir, f)

def joinCommaSpace : List (List Char) → List Char
  | [] => []
  | [x] => x
  | x :: y :: rest => x ++ ',' :: ' ' :: joinCommaSpace (y :: rest)

def errPrefix : List Char :=
  "No existing Vocs search index file found in any candidate directory: ".toList

/-- The `console.error` message of the fatal no-index branch
(`candidateDirs.join(', ')` after the fixed prefix). -/
def noIndexMsg (dirs : List (List Char × Option (List (List Char)))) : List Char :=
  errPrefix ++ joinCommaSpace (dirs.map (fun d => d.1))

/-- Outcome of one run of the index-patch script: either fatal —
`console.error(msg)` followed by `process.exit(1)`, nothing written — or the
written target path together with the documents fed to MiniSearch
(mirroring to secondary output directories elided). -/
inductive PatchOutcome where
  | fatal (msg : List Char)
  | written (target : List Char) (documents : List PRecord)
deriving DecidableEq

/-- `main` of `utils/postprocess-search-index.js` with the file system
abstracted: locate an existing index file among the candidate directories;
when none is found the run is fatal before any page is read or any output
written; otherwise the documents of all pages are built and written over the
discovered file. -/
def mainPatch (dirs : List (List Char × Option (List (List Char))))
    (pages : List (List Char × List Char)) : PatchOutcome :=
  match findIndexFile dirs with
  | none => PatchOutcome.fatal (noIndexMsg dirs)
  | some df => PatchOutcome.written (df.1 ++ '/' :: df.2) (mainDocuments pages)

/- ===================== Decimal decode and id uniqueness ================= -/

theorem decDigit_isDigit (n : Nat) : isDigitCh (decDigit n) = true := by
  unfold decDigit
  split <;> decide

theorem decDigit_val {n : Nat} (h : n < 10) : (decDigit n).toNat = 48 + n := by
  interval_cases n <;> decide

/-- Decimal decoding, the inverse of `natToDec` used to recover the
positional index from a record id. -/
def decodeDec (l : List Char) : Nat :=
  l.foldl (fun acc c => acc * 10 + (c.toNat - 48)) 0

theorem decodeDec_concat (a : List Char) (c : Char) :
    decodeDec (a ++ [c]) = decodeDec a * 10 + (c.toNat - 48) := by
  unfold decodeDec
  rw [List.foldl_append]
  rfl

theorem natToDecGo_append :
    ∀ (fuel n : Nat) (acc : List Char),
      natToDecGo fuel n acc = natToDecGo fuel n [] ++ acc := by
  intro fuel
  induction fuel with
  | zero => intro n acc; rfl
  | succ fuel ih =>
    intro n acc
    by_cases h : n < 10
    · simp [natToDecGo, h]
    · rw [show natToDecGo (fuel + 1) n acc =
          natToDecGo fuel (n / 10) (decDigit (n % 10) :: acc) by
        simp [natToDecGo, h]]
      rw [show natToDecGo (fuel + 1) n [] =
          natToDecGo fuel (n / 10) [decDigit (n % 10)] by
        simp [natToDecGo, h]]
      rw [ih (n / 10) (decDigit (n % 10) :: acc), ih (n / 10) [decDigit (n % 10)]]
      simp

theorem decodeDec_natToDecGo :
    ∀ (fuel n : Nat), n ≤ fuel → decodeDec (natToDecGo fuel n []) = n := by
  intro fuel
  induction fuel with
  | zero =>
    intro n hn
    have h0 : n = 0 := Nat.le_zero.mp hn
    rw [h0]
    decide
  | succ fuel ih =>
    intro n hn
    by_cases h : n < 10
    · rw [show natToDecGo (fuel + 1) n [] = [decDigit n] by simp [natToDecGo, h]]
      unfold decodeDec
      simp [decDigit_val h]
    · rw [show natToDecGo (fuel + 1) n [] =
          natToDecGo fuel (n / 10) [decDigit (n % 10)] by
        simp [natToDecGo, h]]
      rw [natToDecGo_append fuel (n / 10) [decDigit (n % 10)]]
      rw [decodeDec_concat, ih (n / 10) (by omega),
        decDigit_val (Nat.mod_lt n (by omega))]
      omega

theorem decodeDec_natToDec (n : Nat) : decodeDec (natToDec n) = n :=
  decodeDec_natToDecGo n n le_rfl

theorem natToDecGo_ne_nil (fuel n : Nat) (acc : List Char) :
    natToDecGo fuel n acc ≠ [] := by
  induction fuel generalizing n acc with
  | zero => simp [natToDecGo]
  | succ fuel ih =>
    unfold natToDecGo
    split
    · simp
    · exact ih (n / 10) (decDigit (n % 10) :: acc)

theorem natToDec_ne_nil (n : Nat) : natToDec n ≠ [] :=
  natToDecGo_ne_nil n n []

theorem natToDecGo_digits :
    ∀ (fuel n : Nat) (acc : List Char), (∀ c ∈ acc, isDigitCh c = true) →
      ∀ c ∈ natToDecGo fuel n acc, isDigitCh c = true := by
  intro fuel
  induction fuel with
  | zero =>
    intro n acc hacc c hc
    rcases List.mem_cons.mp hc with h1 | h1
    · rw [h1]; exact decDigit_isDigit n
    · exact hacc c h1
  | succ fuel ih =>
    intro n acc hacc c hc
    by_cases h : n < 10
    · rw [show natToDecGo (fuel + 1) n acc = decDigit n :: acc by
        simp [natToDecGo, h]] at hc
      rcases List.mem_cons.mp hc with h1 | h1
      · rw [h1]; exact decDigit_isDigit n
      · exact hacc c h1
    · rw [show natToDecGo (fuel + 1) n acc =
          natToDecGo fuel (n / 10) (decDigit (n % 10) :: acc) by
        simp [natToDecGo, h]] at hc
      refine ih (n / 10) (decDigit (n % 10) :: acc) ?_ c hc
      intro d hd
      rcases List.mem_cons.mp hd with h1 | h1
      · rw [h1]; exact decDigit_isDigit (n % 10)
      · exact hacc d h1

theorem natToDec_digits (n : Nat) : ∀ c ∈ natToDec n, isDigitCh c = true :=
  natToDecGo_digits n n [] (by simp)

/-- The maximal digit run at the end of a string. -/
def lastDigitRun (l : List Char) : List Char :=
  (l.reverse.takeWhile isDigitCh).reverse

theorem takeWhile_append_all {p : Char → Bool} :
    ∀ (a b : List Char), (∀ c ∈ a, p c = true) →
      (a ++ b).takeWhile p = a ++ b.takeWhile p := by
  intro a
  induction a with
  | nil => intro b _; rfl
  | cons c rest ih =>
    intro b h
    rw [List.cons_append, List.takeWhile_cons,
      if_pos (h c (List.mem_cons_self c rest)),
      ih b (fun d hd => h d (List.mem_cons_of_mem c hd))]
    rfl

theorem lastDigitRun_append (x d : List Char) (hd : ∀ c ∈ d, isDigitCh c = true) :
    lastDigitRun (x ++ ':' :: ':' :: d) = d := by
  unfold lastDigitRun
  have hrev : (x ++ ':' :: ':' :: d).reverse = d.reverse ++ ':' :: ':' :: x.reverse := by
    simp [List.reverse_append]
  rw [hrev, takeWhile_append_all d.reverse (':' :: ':' :: x.reverse)
    (fun c hc => hd c (List.mem_reverse.mp hc))]
  rw [List.takeWhile_cons, if_neg (by decide)]
  simp

/-- Recover the positional index from a record id. -/
def idIndex (recId : List Char) : Nat := decodeDec (lastDigitRun recId)

theorem idIndex_spec (x : List Char) (i : Nat) :
    idIndex (x ++ ':' :: ':' :: natToDec i) = i := by
  unfold idIndex
  rw [lastDigitRun_append x (natToDec i) (natToDec_digits i)]
  exact decodeDec_natToDec i

/-- The record ids of one document are pairwise distinct: the positional
suffix decodes back to the position. -/
theorem docRecords_ids_nodup (relPath raw : List Char) :
    ((docRecords relPath raw).map PRecord.id).Nodup := by
  simp only [docRecords]
  apply List.Nodup.of_map idIndex
  rw [List.map_map, List.map_map]
  have hcongr :
      (extractSectionsFromMdx raw).enum.map
        ((idIndex ∘ PRecord.id) ∘ (fun p =>
          { href := computeHref relPath ++ '#' :: p.2.anchor, html := [],
            id := (computeHref relPath ++ '#' :: p.2.anchor) ++ ':' :: ':' :: natToDec p.1,
            isPage := p.2.isPage, text := p.2.text, title := p.2.title,
            titles := p.2.titles : PRecord })) =
      (extractSectionsFromMdx raw).enum.map Prod.fst := by
    apply List.map_congr_left
    intro p _
    exact idIndex_spec _ p.1
  rw [hcongr, List.enum_map_fst]
  exact List.nodup_range _

/- ===================== Section-count lemmas ============================= -/

theorem extractLoop_length (lines : List (List Char)) :
    ∀ (cur : Option RawSection) (parents : List (Option (List Char))),
      (extractLoop lines cur parents).length =
        List.countP (fun l => (headingParse l).isSome) lines +
          (match cur with | some _ => 1 | none => 0) := by
  induction lines with
  | nil =>
    intro cur parents
    cases cur <;> simp [extractLoop, List.countP_nil]
  | cons line rest ih =>
    intro cur parents
    cases hp : headingParse line with
    | some lt =>
      have hstep : extractLoop (line :: rest) cur parents =
          (match cur with | some c => [c] | none => []) ++
            extractLoop rest
              (some { level := lt.1, title := lt.2, anchor := slugify lt.2,
                      titles := (headingTitles parents lt.1 lt.2).1, chunks := [] })
              (headingTitles parents lt.1 lt.2).2 := by
        simp [extractLoop, hp]
      rw [hstep, List.length_append, ih, List.countP_cons, hp]
      cases cur with
      | none => simp
      | some c => simp; omega
    | none =>
      cases cur with
      | none =>
        have hstep : extractLoop (line :: rest) none parents =
            extractLoop rest none parents := by
          simp [extractLoop, hp]
        rw [hstep, ih, List.countP_cons, hp]
        simp
      | some c =>
        have hstep : extractLoop (line :: rest) (some c) parents =
            extractLoop rest (some { c with chunks := c.chunks ++ [line] }) parents := by
          simp [extractLoop, hp]
        rw [hstep, ih, List.countP_cons, hp]
        simp

theorem splitLoop_filter (lines : List (List Char)) :
    ∀ (cur : SimpleSection),
      splitLoop lines cur =
        (splitLoopAll lines cur).filter (fun s => !(jsTrim s.text).isEmpty) := by
  induction lines with
  | nil =>
    intro cur
    by_cases h : (jsTrim cur.text).isEmpty = true
    · simp [splitLoop, splitLoopAll, List.filter, h]
    · have h2 : (jsTrim cur.text).isEmpty = false := Bool.eq_false_iff.mpr h
      simp [splitLoop, splitLoopAll, List.filter, h2]
  | cons line rest ih =>
    intro cur
    cases hp : heading23Parse line with
    | some title =>
      have hl : splitLoop (line :: rest) cur =
          (if (jsTrim cur.text).isEmpty then [] else [cur]) ++
            splitLoop rest { title := title, text := [] } := by
        simp [splitLoop, hp]
      have hr : splitLoopAll (line :: rest) cur =
          cur :: splitLoopAll rest { title := title, text := [] } := by
        simp [splitLoopAll, hp]
      rw [hl, hr, ih, List.filter_cons]
      by_cases h : (jsTrim cur.text).isEmpty = true
      · simp [h]
      · have h2 : (jsTrim cur.text).isEmpty = false := Bool.eq_false_iff.mpr h
        simp [h2]
    | none =>
      have hl : splitLoop (line :: rest) cur =
          splitLoop rest { cur with text := cur.text ++ line ++ ['\n'] } := by
        simp [splitLoop, hp]
      have hr : splitLoopAll (line :: rest) cur =
          splitLoopAll rest { cur with text := cur.text ++ line ++ ['\n'] } := by
        simp [splitLoopAll, hp]
      rw [hl, hr, ih]

theorem splitLoopAll_length (lines : List (List Char)) :
    ∀ (cur : SimpleSection),
      (splitLoopAll lines cur).length =
        List.countP (fun l => (heading23Parse l).isSome) lines + 1 := by
  induction lines with
  | nil => intro cur; simp [splitLoopAll]
  | cons line rest ih =>
    intro cur
    cases hp : heading23Parse line with
    | some title =>
      have hr : splitLoopAll (line :: rest) cur =
          cur :: splitLoopAll rest { title := title, text := [] } := by
        simp [splitLoopAll, hp]
      rw [hr, List.length_cons, ih, List.countP_cons, hp]
      simp
      try omega
    | none =>
      have hr : splitLoopAll (line :: rest) cur =
          splitLoopAll rest { cur with text := cur.text ++ line ++ ['\n'] } := by
        simp [splitLoopAll, hp]
      rw [hr, ih, List.countP_cons, hp]
      simp


/- ===================== Global id uniqueness (distinct bases) ============ -/

/-- Strip the final `"::" + digits` from a record id. -/
def stripIdSuffix (l : List Char) : List Char :=
  l.take (l.length - (lastDigitRun l).length - 2)

/-- The segment after the last `#`. -/
def afterLastHash (l : List Char) : List Char :=
  (l.reverse.takeWhile (fun c => !(c == '#'))).reverse

/-- Recover the base URL from a record id: strip the positional suffix, then
everything from the last `#` on. -/
def baseOfId (l : List Char) : List Char :=
  (stripIdSuffix l).take
    ((stripIdSuffix l).length - (afterLastHash (stripIdSuffix l)).length - 1)

theorem stripIdSuffix_id (b a d : List Char) (hd : ∀ c ∈ d, isDigitCh c = true) :
    stripIdSuffix ((b ++ '#' :: a) ++ ':' :: ':' :: d) = b ++ '#' :: a := by
  unfold stripIdSuffix
  rw [lastDigitRun_append (b ++ '#' :: a) d hd]
  have harith : ((b ++ '#' :: a) ++ ':' :: ':' :: d).length - d.length - 2 =
      (b ++ '#' :: a).length := by
    simp [List.length_append]
    omega
  rw [harith]
  exact List.take_left _ _

theorem afterLastHash_append (b a : List Char)
    (ha : ∀ c ∈ a, (c == '#') = false) : afterLastHash (b ++ '#' :: a) = a := by
  unfold afterLastHash
  rw [show (b ++ '#' :: a).reverse = a.reverse ++ '#' :: b.reverse by simp]
  rw [takeWhile_append_all a.reverse ('#' :: b.reverse)
    (fun c hc => by simp [ha c (List.mem_reverse.mp hc)])]
  rw [List.takeWhile_cons, if_neg (by decide)]
  simp

theorem baseOfId_id (b a d : List Char) (hd : ∀ c ∈ d, isDigitCh c = true)
    (ha : ∀ c ∈ a, (c == '#') = false) :
    baseOfId ((b ++ '#' :: a) ++ ':' :: ':' :: d) = b := by
  unfold baseOfId
  rw [stripIdSuffix_id b a d hd, afterLastHash_append b a ha]
  have harith : (b ++ '#' :: a).length - a.length - 1 = b.length := by
    simp [List.length_append]
    omega
  rw [harith]
  exact List.take_left _ _

theorem slugify_no_hash (t : List Char) : ∀ c ∈ slugify t, (c == '#') = false := by
  intro c hc
  rcases slugChar_cases (slugify_chars c hc) with h | h | h
  · simp only [beq_eq_false_iff_ne, ne_eq]
    intro he
    rw [he] at h
    revert h
    decide
  · simp only [beq_eq_false_iff_ne, ne_eq]
    intro he
    rw [he] at h
    revert h
    decide
  · rw [h]
    decide

/-- Every raw section of the extractor loop carries an anchor computed by
`slugify` (either inherited from the incoming current section or created at a
heading). -/
theorem extractLoop_anchor_slug (lines : List (List Char)) :
    ∀ (cur : Option RawSection) (parents : List (Option (List Char)))
      (s : RawSection),
      (∀ c0, cur = some c0 → ∃ t, c0.anchor = slugify t) →
      s ∈ extractLoop lines cur parents → ∃ t, s.anchor = slugify t := by
  induction lines with
  | nil =>
    intro cur parents s hcur hs
    cases cur with
    | none => simp [extractLoop] at hs
    | some c0 =>
      have hseq : s = c0 := by simpa [extractLoop] using hs
      rw [hseq]
      exact hcur c0 rfl
  | cons line rest ih =>
    intro cur parents s hcur hs
    cases hp : headingParse line with
    | some lt =>
      cases cur with
      | none =>
        have hstep : extractLoop (line :: rest) none parents =
            extractLoop rest
              (some { level := lt.1, title := lt.2, anchor := slugify lt.2,
                      titles := (headingTitles parents lt.1 lt.2).1, chunks := [] })
              (headingTitles parents lt.1 lt.2).2 := by
          simp [extractLoop, hp]
        rw [hstep] at hs
        refine ih _ _ s ?_ hs
        intro c0 hc0
        have h2 := Option.some.inj hc0
        rw [← h2]
        exact ⟨lt.2, rfl⟩
      | some c =>
        have hstep : extractLoop (line :: rest) (some c) parents =
            c :: extractLoop rest
              (some { level := lt.1, title := lt.2, anchor := slugify lt.2,
                      titles := (headingTitles parents lt.1 lt.2).1, chunks := [] })
              (headingTitles parents lt.1 lt.2).2 := by
          simp [extractLoop, hp]
        rw [hstep] at hs
        rcases List.mem_cons.mp hs with h1 | h1
        · rw [h1]
          exact hcur c rfl
        · refine ih _ _ s ?_ h1
          intro c0 hc0
          have h2 := Option.some.inj hc0
          rw [← h2]
          exact ⟨lt.2, rfl⟩
    | none =>
      cases cur with
      | none =>
        have hstep : extractLoop (line :: rest) none parents =
            extractLoop rest none parents := by
          simp [extractLoop, hp]
        rw [hstep] at hs
        exact ih _ _ s (by intro c0 hc0; cases hc0) hs
      | some c =>
        have hstep : extractLoop (line :: rest) (some c) parents =
            extractLoop rest (some { c with chunks := c.chunks ++ [line] }) parents := by
          simp [extractLoop, hp]
        rw [hstep] at hs
        refine ih _ _ s ?_ hs
        intro c0 hc0
        have h2 := Option.some.inj hc0
        rw [← h2]
        exact hcur c rfl

theorem psection_anchor_slug (raw : List Char) :
    ∀ s ∈ extractSectionsFromMdx raw, ∃ t, s.anchor = slugify t := by
  intro s hs
  obtain ⟨p, hp, hps⟩ := List.mem_map.mp hs
  have hraw :=
    extractLoop_anchor_slug (splitLinesCRLF (matterContent raw)) none [] p.2
      (by intro c0 hc0; cases hc0)
      (by
        rw [List.enum_eq_zip_range] at hp
        exact (List.of_mem_zip hp).2)
  obtain ⟨t, ht⟩ := hraw
  exact ⟨t, by rw [← hps]; exact ht⟩

theorem map_flatMap_eq {α β γ : Type} (g : β → γ) (f : α → List β) :
    ∀ (l : List α), (l.flatMap f).map g = l.flatMap (fun a => (f a).map g) := by
  intro l
  induction l with
  | nil => rfl
  | cons a rest ih => simp only [List.flatMap_cons, List.map_append, ih]

/-- The (base URL, position) keys of one document's records. -/
theorem docRecords_keys (rel raw : List Char) :
    ((docRecords rel raw).map PRecord.id).map
        (fun recId => (baseOfId recId, idIndex recId)) =
      (extractSectionsFromMdx raw).enum.map (fun p => (computeHref rel, p.1)) := by
  simp only [docRecords, List.map_map]
  apply List.map_congr_left
  intro p hp
  have hsec : p.2 ∈ extractSectionsFromMdx raw := by
    rw [List.enum_eq_zip_range] at hp
    exact (List.of_mem_zip hp).2
  obtain ⟨t, ht⟩ := psection_anchor_slug raw p.2 hsec
  have hhash : ∀ c ∈ p.2.anchor, (c == '#') = false := by
    rw [ht]
    exact slugify_no_hash t
  show (baseOfId ((computeHref rel ++ '#' :: p.2.anchor) ++ ':' :: ':' :: natToDec p.1),
      idIndex ((computeHref rel ++ '#' :: p.2.anchor) ++ ':' :: ':' :: natToDec p.1)) =
    (computeHref rel, p.1)
  rw [baseOfId_id (computeHref rel) p.2.anchor (natToDec p.1)
      (natToDec_digits p.1) hhash,
    idIndex_spec (computeHref rel ++ '#' :: p.2.anchor) p.1]

theorem docRecords_keys_nodup (rel raw : List Char) :
    (((docRecords rel raw).map PRecord.id).map
        (fun recId => (baseOfId recId, idIndex recId))).Nodup := by
  rw [docRecords_keys]
  apply List.Nodup.of_map Prod.snd
  rw [List.map_map]
  have : (Prod.snd ∘ fun p : Nat × PSection => (computeHref rel, p.1)) =
      fun p : Nat × PSection => p.1 := rfl
  rw [this, show (fun p : Nat × PSection => p.1) = Prod.fst from rfl,
    List.enum_map_fst]
  exact List.nodup_range _

/-- Ids across the whole output are pairwise distinct whenever the computed
base URLs of the corpus documents are pairwise distinct: the id decomposes
uniquely into its base URL and its position. -/
theorem mainDocuments_ids_nodup (corpus : List (List Char × List Char))
    (hdist : (corpus.map (fun d => computeHref d.1)).Pairwise (fun x y => x ≠ y)) :
    ((mainDocuments corpus).map PRecord.id).Nodup := by
  apply List.Nodup.of_map (fun recId => (baseOfId recId, idIndex recId))
  unfold mainDocuments
  rw [map_flatMap_eq, map_flatMap_eq, List.nodup_flatMap]
  constructor
  · intro d _
    exact docRecords_keys_nodup d.1 d.2
  · have hdist2 : corpus.Pairwise (fun d e => computeHref d.1 ≠ computeHref e.1) :=
      List.pairwise_map.mp hdist
    refine hdist2.imp ?_
    intro d e hne
    intro x hxd hxe
    have hxd2 : x ∈ ((docRecords d.1 d.2).map PRecord.id).map
        (fun recId => (baseOfId recId, idIndex recId)) := hxd
    have hxe2 : x ∈ ((docRecords e.1 e.2).map PRecord.id).map
        (fun recId => (baseOfId recId, idIndex recId)) := hxe
    rw [docRecords_keys] at hxd2 hxe2
    obtain ⟨p, -, hp⟩ := List.mem_map.mp hxd2
    obtain ⟨q, -, hq⟩ := List.mem_map.mp hxe2
    exact hne (congrArg Prod.fst (hp.trans hq.symm))

/-- Any path ending in the segment `/index.mdx`. -/
def slashIndexMdx : List Char := "/index.mdx".toList

/-- For every parent path, a document at `<parent>/index.mdx` collapses to the
parent route: the extension is stripped and the `/index` segment dropped. -/
theorem computeHref_index_collapse (u : List Char) :
    computeHref (u ++ slashIndexMdx) = '/' :: u := by
  have hlen10 : slashIndexMdx.length = 10 := rfl
  have hmap : (u ++ slashIndexMdx).map jsLower = u.map jsLower ++ slashIndexMdx := by
    rw [List.map_append]
    congr 1
  have hsuf : mdxExt.isSuffixOf ((u ++ slashIndexMdx).map jsLower) = true := by
    rw [hmap, List.isSuffixOf_iff_suffix]
    exact List.IsSuffix.trans ⟨slashIndexSeg, by decide⟩ (List.suffix_append _ _)
  have h1 : stripMdExt (u ++ slashIndexMdx) = u ++ slashIndexSeg := by
    unfold stripMdExt
    rw [if_pos hsuf]
    have hh : (u ++ slashIndexMdx).length - 4 = u.length + 6 := by
      rw [List.length_append, hlen10]
      omega
    rw [hh, List.take_append 6]
    congr 1
  have hsuf2 : slashIndexSeg.isSuffixOf ((u ++ slashIndexSeg).map jsLower) = true := by
    rw [List.map_append, show slashIndexSeg.map jsLower = slashIndexSeg from by decide,
      List.isSuffixOf_iff_suffix]
    exact List.suffix_append _ _
  have h2 : stripTrailIndex (u ++ slashIndexSeg) = u := by
    unfold stripTrailIndex
    rw [if_pos hsuf2]
    have hh : (u ++ slashIndexSeg).length - 6 = u.length := by
      rw [List.length_append]
      have h6 : slashIndexSeg.length = 6 := rfl
      omega
    rw [hh]
    exact List.take_left _ _
  unfold computeHref
  rw [h1, h2]

/- ===================== Concrete example inputs ========================== -/

def exPathA : List Char := "a.mdx".toList

def exPathAIndex : List Char := "a/index.mdx".toList

def exDocTwoHeads : List Char := "# A\n# B".toList

def exDocH1T : List Char := "# T".toList

def exCorpusEmptySections : List (List Char × List Char) :=
  [(exPathA, exDocTwoHeads)]

def exCorpusDupIds : List (List Char × List Char) :=
  [(exPathA, exDocH1T), (exPathAIndex, exDocH1T)]

def exDupId : List Char := "/a#t::0".toList

def exRootIndexPath : List Char := "index.mdx".toList

def exGuideIndexPath : List Char := "guide/index.mdx".toList

def exGuideSetupPath : List Char := "guide/setup.mdx".toList

def exSlash : List Char := "/".toList

def exSlashIndex : List Char := "/index".toList

def exSlashGuide : List Char := "/guide".toList

def exSlashGuideSetup : List Char := "/guide/setup".toList

def exSlashGuideIndex : List Char := "/guide/index".toList

def exAmpTitle : List Char := "A & B".toList

def exABAnchor : List Char := "a-b".toList

def exAAndBAnchor : List Char := "a-and-b".toList

def exDocH3 : List Char := "### T".toList

def exDocTwoH2 : List Char := "## A\n## B".toList

def exC7Input : List Char :=
  "Some **bold** text\n\n```js\nconst x = 1;\n```\n\nMore <b>text</b>.".toList

def exC7Target : List Char := "Some **bold** text More text.".toList

def exC7PatchResult : List Char :=
  "Some **bold** text\n\n\nconst x = 1;\n\n\nMore text.".toList

def idRender : List Char → List Char := fun l => l

def exPathSimple : List Char := "a.md".toList

def exDocSimple : List Char := "## X\nhello".toList

def exCorpusSimple : List (List Char × List Char) := [(exPathSimple, exDocSimple)]

def exTitleXX : List Char := "X › X".toList

def exHello : List Char := "hello".toList

def exSlashA : List Char := "/a".toList

def exRecordSimple : SRecord :=
  { title := exTitleXX, content := exHello, url := exSlashA }

def exRouteGuide : List Char := "/guide".toList

def exRouteGuideSetup : List Char := "/guide/setup".toList

def exRouteInternal : List Char := "/internal-draft".toList

def exRoutes : List (List Char) := [exRouteGuide, exRouteGuideSetup]

def exHrefInternal : List Char := "/internal-draft#intro".toList

def exHrefGuide : List Char := "/guide#intro".toList

def exIntro : List Char := "intro".toList

def exRecordGuide : PRecord :=
  { href := exHrefGuide, html := [], id := exHrefGuide ++ ':' :: ':' :: natToDec 0,
    isPage := true, text := [], title := exIntro, titles := [] }

def exRecordInternal : PRecord :=
  { href := exHrefInternal, html := [], id := exHrefInternal ++ ':' :: ':' :: natToDec 0,
    isPage := true, text := [], title := exIntro, titles := [] }

def exRouteDocs : List PRecord := [exRecordGuide, exRecordInternal]

def exDir1 : List Char := "/vercel/path0/docs/dist/.vocs".toList

def exDir2 : List Char := ".vercel/output/static/.vocs".toList

def exDir3 : List Char := "docs/dist/.vocs".toList

def exOtherFile : List Char := "readme.md".toList

def exNoIndexDirs : List (List Char × Option (List (List Char))) :=
  [(exDir1, none), (exDir2, some []), (exDir3, some [exOtherFile])]

def exPathB : List Char := "b.mdx".toList

def exCorpusDistinct : List (List Char × List Char) :=
  [(exPathA, exDocH1T), (exPathB, exDocH1T)]

/- ===================== Claims =========================================== -/

/-- C1 counterexample: in the index-patch pipeline, the document `# A\n# B`
(two bare headings) yields two sections whose cleaned text is empty, and both
are pushed as records — so a section with empty cleaned text is not dropped
and does reach the index, falsifying the claim for "every variant of the
pipeline". -/
theorem claim_C1_counterexample :
    (mainDocuments exCorpusEmptySections).map PRecord.text = [[], []] ∧
      (mainDocuments exCorpusEmptySections).length = 2 := by
  constructor
  · decide
  · decide

/-- C1 (amended): in the simple JSON variant (`unnamed/part_000`), every
record serialized has non-empty content — any section whose extracted text is
empty is skipped (`if (!text) continue`) and no record derived from it is
ever added.  The index-patch variants do not perform this filtering (see the
counterexample). -/
theorem claim_C1 (render : List Char → List Char)
    (corpus : List (List Char × List Char)) (r : SRecord)
    (hr : r ∈ buildIndexRecords render corpus) : r.content ≠ [] := by
  simp only [buildIndexRecords] at hr
  obtain ⟨d, -, hmem⟩ := List.mem_flatMap.mp hr
  simp only [fileRecords] at hmem
  obtain ⟨p, -, hmem2⟩ := List.mem_flatMap.mp hmem
  by_cases ht : (extractTextFromMarkdown render p.2.text).isEmpty = true
  · rw [if_pos ht] at hmem2
    exact absurd hmem2 (by simp)
  · rw [if_neg ht] at hmem2
    have hr2 := List.mem_singleton.mp hmem2
    have htne : extractTextFromMarkdown render p.2.text ≠ [] := by
      intro he
      rw [he] at ht
      exact ht rfl
    obtain ⟨c, rest2, hc⟩ :
        ∃ c rest2, extractTextFromMarkdown render p.2.text = c :: rest2 := by
      cases hx : extractTextFromMarkdown render p.2.text with
      | nil => exact absurd hx htne
      | cons c rest2 => exact ⟨c, rest2, rfl⟩
    rw [hr2]
    simp only [hc]
    rw [show (3000 : Nat) = 2999 + 1 from rfl, List.take_succ_cons]
    simp

/-- C1 witness: a concrete simple-variant corpus, its single record, and the
theorem applied to it. -/
theorem claim_C1_witness :
    exRecordSimple ∈ buildIndexRecords idRender exCorpusSimple ∧
      exRecordSimple.content ≠ [] :=
  ⟨by decide, claim_C1 idRender exCorpusSimple exRecordSimple (by decide)⟩

/-- C2 counterexample: for the root document `index.mdx` the computed base
URL is `/index`, not `/` as the claim states — the regex that collapses a
trailing `/index` segment requires the preceding slash, which the root path
does not have. -/
theorem claim_C2_counterexample :
    computeHref exRootIndexPath ≠ exSlash ∧
      computeHref exRootIndexPath = exSlashIndex := by
  constructor
  · decide
  · decide

/-- C2 (amended): the index-patch `computeHref` strips the `.md`/`.mdx`
extension and collapses a trailing `/index` segment to the parent path: for
every parent path `u`, `u/index.mdx` maps to `/u` (in particular
`guide/index.mdx` to `/guide`), and `guide/setup.mdx` maps to
`/guide/setup` — but the root `index.mdx` maps to `/index`, not `/` (the
collapse needs the preceding slash); the simple variant's URL base strips
only the extension and never collapses an `/index` segment
(`guide/index.mdx` maps to `/guide/index`). -/
theorem claim_C2 :
    (∀ u : List Char, computeHref (u ++ slashIndexMdx) = '/' :: u) ∧
      computeHref exGuideIndexPath = exSlashGuide ∧
      computeHref exGuideSetupPath = exSlashGuideSetup ∧
      computeHref exRootIndexPath = exSlashIndex ∧
      urlBase000 exGuideIndexPath = exSlashGuideIndex := by
  refine ⟨computeHref_index_collapse, ?_, ?_, ?_, ?_⟩ <;> decide

/-- C3 counterexample: the corpus with the two distinct files `a.mdx` and
`a/index.mdx` (each a single `# T` heading) produces the record id
`/a#t::0` twice — ids are not pairwise distinct across the whole output. -/
theorem claim_C3_counterexample :
    ¬ ((mainDocuments exCorpusDupIds).map PRecord.id).Nodup ∧
      (mainDocuments exCorpusDupIds).map PRecord.id = [exDupId, exDupId] := by
  constructor
  · decide
  · decide

/-- C3 (amended): record ids (`href + "::" + positional index`) are pairwise
distinct across the whole output for every corpus whose documents map to
pairwise distinct base URLs — in particular within any single document, even
when two sections share a heading title (duplicate anchors), since the
decimal suffix after the final `::` decodes back to the position.  Two
distinct paths can map to the same base URL (e.g. `a.mdx` and
`a/index.mdx`), and then ids of different documents collide (see the
counterexample). -/
theorem claim_C3 (corpus : List (List Char × List Char))
    (hdist : (corpus.map (fun d => computeHref d.1)).Pairwise (fun x y => x ≠ y)) :
    ((mainDocuments corpus).map PRecord.id).Nodup :=
  mainDocuments_ids_nodup corpus hdist

/-- C3 witness: a two-document corpus with distinct base URLs, instantiating
the theorem. -/
theorem claim_C3_witness :
    (exCorpusDistinct.map (fun d => computeHref d.1)).Pairwise (fun x y => x ≠ y) ∧
      ((mainDocuments exCorpusDistinct).map PRecord.id).Nodup :=
  ⟨by decide, claim_C3 exCorpusDistinct (by decide)⟩

/-- C4 counterexample: the simple variant also emits fragments for section
URLs, but its anchor for the title `A & B` is `a-b`, while the algorithm the
claim describes yields `a-and-b` — the claimed algorithm does not hold in
every fragment-emitting variant. -/
theorem claim_C4_counterexample :
    anchor000 exAmpTitle ≠ specAnchor exAmpTitle ∧
      anchor000 exAmpTitle = exABAnchor ∧
      specAnchor exAmpTitle = exAAndBAnchor := by
  refine ⟨?_, ?_, ?_⟩ <;> decide

/-- C4 (amended): in the index-patch variants (the `slugify` shared by all
three scripts), the computed anchor equals, for every heading title, the
result of the algorithm the claim describes: lowercasing, `&` → `and`,
stripping characters outside `[a-z0-9\s-]`, collapsing whitespace runs to
single hyphens, collapsing repeated hyphens, trimming leading/trailing
hyphens.  The simple variant instead lowercases and collapses non-word runs
to hyphens with no `&` mapping (see the counterexample). -/
theorem claim_C4 (title : List Char) : slugify title = specAnchor title :=
  slugify_eq_specAnchor title

/-- C5 counterexample: for the document consisting of the single level-3
heading `### T`, the emitted `titles` is `[null, null]` (two holes left by
the JS array assignment `titles[2] = title` on a truncated array of length
0), not the bare truncated ancestor array `[]` that the claim describes. -/
theorem claim_C5_counterexample :
    (extractSectionsFromMdx exDocH3).map PSection.titles ≠
        [([] : List (Option (List Char)))] ∧
      (extractSectionsFromMdx exDocH3).map PSection.titles = [[none, none]] := by
  constructor
  · decide
  · decide

/-- C5 (amended): on a heading of level `L` with ancestor array `P`, the
extractor's per-heading step emits as `titles` the truncation
`P.slice(0, L-1)` padded with holes (`undefined`, modelled `none`) up to
length `L-1` — equal to the bare truncated array exactly when `P` already
has at least `L-1` entries, i.e. when no level was skipped — and stores as
the new ancestor array that padded truncation with the own title set at index
`L-1`; the own title is never part of the emitted `titles`. -/
theorem claim_C5 (P : List (Option (List Char))) (L : Nat) (t : List Char) :
    (headingTitles P L t).1 =
        P.take (L - 1) ++ List.replicate ((L - 1) - min (L - 1) P.length) none ∧
      (headingTitles P L t).2 = (headingTitles P L t).1 ++ [some t] := by
  have hlen : (P.take (L - 1)).length = min (L - 1) P.length :=
    List.length_take _ _
  have hset : jsArraySet (P.take (L - 1)) (L - 1) t =
      (P.take (L - 1) ++ List.replicate ((L - 1) - min (L - 1) P.length) none)
        ++ [some t] := by
    unfold jsArraySet
    rw [if_neg (by rw [hlen]; omega), hlen, List.append_assoc]
  constructor
  · show (jsArraySet (P.take (L - 1)) (L - 1) t).dropLast = _
    rw [hset, List.dropLast_concat]
  · show jsArraySet (P.take (L - 1)) (L - 1) t =
      (jsArraySet (P.take (L - 1)) (L - 1) t).dropLast ++ [some t]
    conv_lhs => rw [hset]
    rw [hset, List.dropLast_concat]

/-- C6 counterexample: the document `## A\n## B` has two headings at the
tracked levels and blank leading text, so the claim predicts exactly two
sections before empty-text filtering; the simple variant's extractor filters
blank-raw-text sections inline and produces zero sections. -/
theorem claim_C6_counterexample :
    List.countP (fun l => (heading23Parse l).isSome) (splitOnChar '\n' exDocTwoH2) = 2 ∧
      (splitByHeadings exDocTwoH2).length = 0 := by
  constructor
  · decide
  · decide

/-- C6 (amended): the index-patch extractor produces exactly one section per
heading line of the front-matter-stripped body (exactly N, leading text
discarded).  The simple variant's extractor equals the unfiltered
N+1-candidate loop (implicit `Introduction` section plus one section per
`##`/`###` heading) composed with the blank-raw-text filter — the filtering
happens inline during extraction, not afterwards. -/
theorem claim_C6 (raw content : List Char) :
    (extractSectionsFromMdx raw).length =
        List.countP (fun l => (headingParse l).isSome)
          (splitLinesCRLF (matterContent raw)) ∧
      splitByHeadings content =
        (splitByHeadingsAll content).filter (fun s => !(jsTrim s.text).isEmpty) ∧
      (splitByHeadingsAll content).length =
        List.countP (fun l => (heading23Parse l).isSome) (splitOnChar '\n' content) + 1 := by
  refine ⟨?_, ?_, ?_⟩
  · show ((extractLoop (splitLinesCRLF (matterContent raw)) none []).enum.map _).length = _
    rw [List.length_map, List.enum_length,
      extractLoop_length (splitLinesCRLF (matterContent raw)) none []]
    rfl
  · exact splitLoop_filter _ _
  · exact splitLoopAll_length _ _

/-- C7 counterexample: on the claim's example input, the index-patch section
cleaning keeps the fenced code's contents (only the marker lines are
blanked), and does not collapse whitespace — it produces a different string
than the claimed result. -/
theorem claim_C7_counterexample :
    postprocessSectionText exC7Input ≠ exC7Target ∧
      postprocessSectionText exC7Input = exC7PatchResult := by
  constructor
  · decide
  · decide

/-- C7 (amended): the simple variant's `cleanMarkdown` on the example input
produces exactly the claimed result — fenced block contents removed, HTML
tags stripped, whitespace collapsed to single spaces, emphasis markers
retained; the index-patch cleaning instead blanks only the fence marker
lines, keeps the fenced contents, and does not collapse whitespace. -/
theorem claim_C7 :
    cleanMarkdown exC7Input = exC7Target ∧
      postprocessSectionText exC7Input = exC7PatchResult := by
  constructor
  · decide
  · decide

/-- C8: when a non-empty route allow-list is supplied, the filter keeps
exactly the records whose base URL (the href with the fragment stripped) is
a member of the allow-list. -/
theorem claim_C8 (routes : List (List Char)) (documents : List PRecord)
    (hne : routes ≠ []) (d : PRecord) :
    d ∈ filterByRoutes (some routes) documents ↔
      d ∈ documents ∧ hrefBase d.href ∈ routes := by
  have hpos : routes.length > 0 := by
    cases routes with
    | nil => exact absurd rfl hne
    | cons a rest => simp
  rw [show filterByRoutes (some routes) documents =
    List.filter (fun d => routes.contains (hrefBase d.href)) documents by
      show (if routes.length > 0 then
          List.filter (fun d => routes.contains (hrefBase d.href)) documents
        else documents) =
        List.filter (fun d => routes.contains (hrefBase d.href)) documents
      rw [if_pos hpos]]
  rw [List.mem_filter]
  constructor
  · rintro ⟨h1, h2⟩
    exact ⟨h1, by simpa using h2⟩
  · rintro ⟨h1, h2⟩
    exact ⟨h1, by simpa using h2⟩

/-- C8 witness: with allow-list `{/guide, /guide/setup}` and a record whose
base URL is `/internal-draft`, the theorem instantiates: the record is kept
iff its base URL is in the list (and here it is not, so it is dropped). -/
theorem claim_C8_witness :
    exRoutes ≠ [] ∧
      (exRecordInternal ∈ filterByRoutes (some exRoutes) exRouteDocs ↔
        exRecordInternal ∈ exRouteDocs ∧ hrefBase exRecordInternal.href ∈ exRoutes) ∧
      hrefBase exRecordInternal.href ∉ exRoutes ∧
      exRecordInternal ∉ filterByRoutes (some exRoutes) exRouteDocs :=
  ⟨by decide,
   claim_C8 exRoutes exRouteDocs (by decide) exRecordInternal,
   by decide,
   by decide⟩

/-- C9: in the index-patch variant, when no candidate directory contains an
existing search-index file, the run is fatal — the descriptive message goes
to the error channel and the process exits non-zero (`PatchOutcome.fatal`),
with no output written (the `written` outcome is never produced). -/
theorem claim_C9 (dirs : List (List Char × Option (List (List Char))))
    (pages : List (List Char × List Char))
    (h : findIndexFile dirs = none) :
    mainPatch dirs pages = PatchOutcome.fatal (noIndexMsg dirs) := by
  unfold mainPatch
  rw [h]

/-- C9 witness: the three candidate directories of the script, respectively
missing, empty, and holding only a non-matching file: the run is fatal. -/
theorem claim_C9_witness :
    findIndexFile exNoIndexDirs = none ∧
      mainPatch exNoIndexDirs [] = PatchOutcome.fatal (noIndexMsg exNoIndexDirs) :=
  ⟨by decide, claim_C9 exNoIndexDirs [] (by decide)⟩

/-- C10: `slugify` is idempotent — every output consists only of characters
in `[a-z0-9-]` (in particular no whitespace) with no leading or trailing
hyphen (trimming all end hyphens is a no-op on it), so a second application
changes nothing. -/
theorem claim_C10 (s : List Char) :
    slugify (slugify s) = slugify s ∧
      (∀ c ∈ slugify s, slugChar c = true) ∧
      hyphenTrimAll (slugify s) = slugify s :=
  ⟨slugify_idem s, slugify_chars, slugify_trimmed s⟩
